import Mathlib

/-!
Verification of the copy/archive engine in storage/copy.go of the
viant/toolbox repository.  URLs and paths are modelled as lists of
characters, byte streams as lists of naturals, the storage Service
interface as explicit function records, and the recursive tree walk
as a fuel-indexed function.
-/

set_option maxRecDepth 20000

namespace Storage

/-- URLs and paths are modelled as lists of characters, mirroring Go strings. -/
abbrev Str := List Char

/-- Byte streams are modelled as lists of naturals. -/
abbrev Bytes := List Nat

/-- Conversion from a Lean string literal to the character-list model. -/
def str (s : String) : Str := s.data

/-- Index of the first occurrence of the pattern p in s, as strings.Index in
Go (none corresponds to the Go result -1). -/
def indexOfSub (p : Str) : Str → Option Nat
  | [] => if p.isEmpty then some 0 else none
  | c :: rest =>
    if p.isPrefixOf (c :: rest) then some 0
    else (indexOfSub p rest).map (· + 1)

/-- Canonical path of a URL: drop a scheme://host prefix and a trailing
slash, following urlPath in storage/copy.go lines 17-32. -/
def urlPath (URL : Str) : Str :=
  let result :=
    match indexOfSub (str "://") URL with
    | some schemaPosition => URL.drop (schemaPosition + 3)
    | none => URL
  let result :=
    match result.findIdx? (· == '/') with
    | some pathRoot => if 0 < pathRoot then result.drop pathRoot else result
    | none => result
  if result.getLast? = some '/' then result.dropLast else result

/-- Modelled from the spec: toolbox.URLPathJoin (a function of this
repository that is outside the embedded sources) is scheme-aware
concatenation of a base URL and a path segment that avoids duplicate
separators. -/
def urlPathJoin (baseURL p : Str) : Str :=
  let b := if baseURL.getLast? = some '/' then baseURL.dropLast else baseURL
  let q := if p.head? = some '/' then p.tail else p
  b ++ '/' :: q

/-- The name component after the final slash of a path, as the second
result of path.Split in Go. -/
def baseName (s : Str) : Str := (s.reverse.takeWhile (· != '/')).reverse

/-- Strip one leading slash, as the HasPrefix/drop steps in
storage/copy.go lines 59-61 and 187-189. -/
def stripLeadingSlash (s : Str) : Str :=
  if s.head? = some '/' then s.tail else s

/-- strings.Replace(s, old, new, 1) in Go: replace the first occurrence
of old in s with new. -/
def replaceFirst (old new : Str) : Str → Str
  | [] => if old.isEmpty then new else []
  | c :: rest =>
    if old.isPrefixOf (c :: rest) then new ++ (c :: rest).drop old.length
    else c :: replaceFirst old new rest

example : urlPath (str "host/path") = str "/path" := by decide
example : urlPath (str "mem:///src") = str "/src" := by decide
example : urlPath (str "mem:///src/") = str "/src" := by decide
example : urlPathJoin (str "mem:///src") (str "a.txt") = str "mem:///src/a.txt" := by decide
example : baseName (str "mem:///src/a.txt") = str "a.txt" := by decide
example : replaceFirst (str "mem:///dev/nul") [] (str "mem:///dev/nul/a.txt") = str "/a.txt" := by decide

/-- An Object is an immutable descriptor of one backend entry: its URL and
its folder/content classification (the data model declares IsFolder and
IsContent mutually exclusive, so one flag captures both). -/
structure Object where
  url : Str
  isFolder : Bool
deriving DecidableEq, Repr

/-- Object.IsContent, the complement of IsFolder under the documented
mutual-exclusivity invariant. -/
def Object.isContent (o : Object) : Bool := !o.isFolder

/-- The interface the walk uses, combining the source Service (List,
Download), the optional ModificationHandler, the destination Service probe
(StorageObject, with its error discarded as in line 95 of copy.go) and the
CopyHandler acting on a handler state of type sigma.  Errors are Go error
strings. -/
structure Walker (σ : Type) where
  list : Str → Except Str (List Object)
  download : Object → Except Str Bytes
  modify : Option (Bytes → Except Str Bytes)
  probe : σ → Str → Option Object
  handler : Object → Bytes → σ → Str → Except Str σ

/-- Observable events of one walk: each List call with its returned
objects, and each CopyHandler invocation with the destination URL and the
bytes handed over. -/
inductive Event where
  | listed (url : Str) (objs : List Object)
  | handled (o : Object) (dstURL : Str) (bytes : Bytes)
deriving DecidableEq, Repr

/-- Lines 75-88 of copy.go: when a ModificationHandler is present the
content is fully buffered, rewritten, and a failure is wrapped with the
two URLs. -/
def applyModify (modify : Option (Bytes → Except Str Bytes))
    (objURL dstURL : Str) (content : Bytes) : Except Str Bytes :=
  match modify with
  | none => .ok content
  | some mh =>
    match mh content with
    | .error e =>
      .error (str "unable modify content, " ++ objURL ++ str " " ++ dstURL ++ str " " ++ e)
    | .ok c => .ok c

/-- Lines 89-105 of copy.go: destination naming disambiguation applied to a
content object when subPath is empty.  The probe argument is
destinationService.StorageObject applied to the current destination
state. -/
def topLevelDestination (probe : Str → Option Object)
    (destinationURL destinationObjectURL objectURL : Str) : Str :=
  let sourceName := baseName objectURL
  let destinationName := baseName destinationURL
  if destinationObjectURL.getLast? = some '/' then
    urlPathJoin destinationObjectURL sourceName
  else
    let destinationObject := probe destinationObjectURL
    if (destinationObject.map Object.isFolder).getD false then
      urlPathJoin destinationObjectURL sourceName
    else if destinationName ≠ sourceName ∧ ¬ destinationName.contains '.' then
      urlPathJoin destinationURL sourceName
    else destinationObjectURL

/-- Lines 57-62 of copy.go: the loop-carried relative path is recomputed
only when the object path is strictly longer than the source root path;
otherwise it keeps its previous value. -/
def nextRelativePath (sourceURLPath objectURLPath prev : Str) : Str :=
  if sourceURLPath.length < objectURLPath.length then
    stripLeadingSlash (objectURLPath.drop sourceURLPath.length)
  else prev

/-- The error wrap of line 70 of copy.go. -/
def downloadErr (objURL dstURL e : Str) : Str :=
  str "unable download, " ++ objURL ++ str " -> " ++ dstURL ++ str ", " ++ e

/-- Lines 48-55 of copy.go: a folder object is skipped when its canonical
path equals the source root's canonical path, or, for a non-empty subPath,
the join of the root's canonical path with subPath. -/
def skipGuard (subPath sourceURLPath : Str) (o : Object) : Prop :=
  o.isFolder = true ∧
    (urlPath o.url = sourceURLPath ∨
      (subPath ≠ [] ∧ urlPath o.url = urlPathJoin sourceURLPath subPath))

instance (subPath sourceURLPath : Str) (o : Object) :
    Decidable (skipGuard subPath sourceURLPath o) := by
  unfold skipGuard; infer_instance

/-- Lines 67-110 of copy.go, the content-object part of one loop
iteration: download, optionally modify, disambiguate the destination name
at the top level, and hand the stream to the copy handler.  The
destinationObjectURL computed by the loop comes in as a parameter. -/
def copyContentStep (w : Walker σ) (destinationURL subPath : Str) (object : Object)
    (objectRelativePath destinationObjectURL : Str) (s : σ) :
    List Event × Str × Except Str σ :=
  match w.download object with
  | .error e => ([], objectRelativePath, .error (downloadErr object.url destinationObjectURL e))
  | .ok content =>
    match applyModify w.modify object.url destinationObjectURL content with
    | .error e => ([], objectRelativePath, .error e)
    | .ok content =>
      let destinationObjectURL :=
        if subPath = [] then
          topLevelDestination (w.probe s) destinationURL destinationObjectURL object.url
        else destinationObjectURL
      match w.handler object content s destinationObjectURL with
      | .error e => ([.handled object destinationObjectURL content], objectRelativePath, .error e)
      | .ok s' => ([.handled object destinationObjectURL content], objectRelativePath, .ok s')

/-- The body of one iteration of the listing loop of copyStorageContent
(lines 45-117 of copy.go): skip a guarded folder, update the loop-carried
relative path, and either download/modify/handle a content object or
recurse into a folder.  Returns the events of the iteration, the value the
loop variable objectRelativePath has afterwards, and the Go result. -/
def copyStep (w : Walker σ) (recurse : Str → σ → List Event × Except Str σ)
    (destinationURL subPath sourceURLPath : Str) (object : Object)
    (objectRelativePath : Str) (s : σ) : List Event × Str × Except Str σ :=
  if skipGuard subPath sourceURLPath object then ([], objectRelativePath, .ok s)
  else
    let objectURLPath := urlPath object.url
    let objectRelativePath := nextRelativePath sourceURLPath objectURLPath objectRelativePath
    let destinationObjectURL :=
      if objectRelativePath ≠ [] then urlPathJoin destinationURL objectRelativePath
      else destinationURL
    if object.isContent = true then
      copyContentStep w destinationURL subPath object objectRelativePath destinationObjectURL s
    else
      match recurse objectRelativePath s with
      | (evs, .error e) => (evs, objectRelativePath, .error e)
      | (evs, .ok s') => (evs, objectRelativePath, .ok s')

/-- The per-listing loop of copyStorageContent (lines 45-118 of copy.go):
iterate copyStep over the listed objects, stopping at the first error.
The recursive call into a sub folder is abstracted as the recurse
argument; copyStorageContent ties the knot below. -/
def copyLoop (w : Walker σ) (recurse : Str → σ → List Event × Except Str σ)
    (destinationURL subPath sourceURLPath : Str) :
    List Object → Str → σ → List Event × Except Str σ
  | [], _, s => ([], .ok s)
  | object :: rest, objectRelativePath, s =>
    match copyStep w recurse destinationURL subPath sourceURLPath object objectRelativePath s with
    | (evs, _, .error e) => (evs, .error e)
    | (evs, objectRelativePath, .ok s') =>
      let next := copyLoop w recurse destinationURL subPath sourceURLPath rest
        objectRelativePath s'
      (evs ++ next.1, next.2)

/-- copyStorageContent of copy.go lines 34-120, indexed by a recursion
fuel: the Go function recurses without bound, the Lean embedding spends
one unit of fuel per folder level. -/
def copyStorageContent (w : Walker σ) (sourceURL destinationURL : Str) :
    Nat → Str → σ → List Event × Except Str σ
  | 0, _, _ => ([], .error (str "recursion limit"))
  | fuel + 1, subPath, s =>
    let sourceListURL := if subPath ≠ [] then urlPathJoin sourceURL subPath else sourceURL
    match w.list sourceListURL with
    | .error e => ([], .error e)
    | .ok objects =>
      let r := copyLoop w (copyStorageContent w sourceURL destinationURL fuel)
        destinationURL subPath (urlPath sourceURL) objects [] s
      (.listed sourceListURL objects :: r.1, r.2)

/-- Copy of copy.go lines 154-163: run the walk with an empty subPath and
wrap any error with the two top-level URLs.  The walker carries the copy
handler (Go defaults a nil handler to copySourceToDestination; the
corresponding walker is built by copyWalker below). -/
def Copy (w : Walker σ) (sourceURL destinationURL : Str) (s : σ) (fuel : Nat) :
    List Event × Except Str σ :=
  match copyStorageContent w sourceURL destinationURL fuel [] s with
  | (evs, .error e) =>
    (evs, .error (str "failed to copy " ++ sourceURL ++ str " -> " ++ destinationURL ++ str ": " ++ e))
  | (evs, .ok s') => (evs, .ok s')

/-- Modelled from the spec: the in-memory destination Service keeps an
append-only journal of uploads; the value of a key is the last upload to
it, so appending implements the overwriting Upload of section 4.1. -/
abbrev Store := List (Str × Bytes)

/-- Lookup in the destination store: the most recent upload wins. -/
def storeLookup (s : Store) (k : Str) : Option Bytes :=
  (s.reverse.find? (fun kv => kv.1 == k)).map (·.2)

/-- Modelled from the spec: Upload of the in-memory Service writes the full
stream at the URL and never fails. -/
def storeUpload (s : Store) (k : Str) (b : Bytes) : Except Str Store :=
  .ok (s ++ [(k, b)])

/-- Modelled from the spec: StorageObject of the in-memory Service resolves
a URL to a content object when it is an uploaded key, to a folder object
when some uploaded key lives strictly below it, and fails (probe result
none) otherwise. -/
def storeObject (s : Store) (k : Str) : Option Object :=
  if s.any (fun kv => kv.1 == k) then some ⟨k, false⟩
  else if s.any (fun kv => (k ++ ['/']).isPrefixOf kv.1) then some ⟨k, true⟩
  else none

/-- copySourceToDestination of copy.go lines 122-128, the default copy
handler: upload the stream at the destination URL, wrapping a failure. -/
def copySourceToDestination (upload : σ → Str → Bytes → Except Str σ)
    (sourceObject : Object) (content : Bytes) (s : σ) (destinationURL : Str) :
    Except Str σ :=
  match upload s destinationURL content with
  | .error e =>
    .error (str "unable upload, " ++ sourceObject.url ++ str " " ++ destinationURL ++ str " " ++ e)
  | .ok s' => .ok s'

/-- Zip compression methods that appear in copy.go. -/
inductive ZipMethod where
  | deflate
  | store
deriving DecidableEq, Repr

/-- One zip entry: the header name, the header compression method and the
streamed content. -/
structure ZipEntry where
  name : Str
  method : ZipMethod
  content : Bytes
deriving DecidableEq, Repr

/-- Modelled from the spec: toolbox.URLSplit (outside the embedded sources)
splits a URL into its parent and its trailing name; only the name is used
by the archive handlers. -/
def urlSplitName (u : Str) : Str := baseName u

/-- getArchiveCopyHandler of copy.go lines 130-151: derive the entry name
from the destination URL (dropping the sentinel parent prefix), set method
Deflate and stream the content. -/
def getArchiveCopyHandler (parentURL : Str) (sourceObject : Object)
    (content : Bytes) (entries : List ZipEntry) (destinationURL : Str) :
    Except Str (List ZipEntry) :=
  let relativePath :=
    if destinationURL ≠ parentURL then replaceFirst parentURL [] destinationURL
    else urlSplitName destinationURL
  .ok (entries ++ [⟨relativePath, .deflate, content⟩])

/-- getArchiveCopyHandlerWithFilter of copy.go lines 172-198: skip objects
rejected by the predicate, strip a leading slash from the entry name and
set method Store. -/
def getArchiveCopyHandlerWithFilter (parentURL : Str)
    (predicate : Object → Bool) (sourceObject : Object) (content : Bytes)
    (entries : List ZipEntry) (destinationURL : Str) :
    Except Str (List ZipEntry) :=
  if !predicate sourceObject then .ok entries
  else
    let relativePath :=
      if destinationURL ≠ parentURL then replaceFirst parentURL [] destinationURL
      else urlSplitName destinationURL
    let relativePath := stripLeadingSlash relativePath
    .ok (entries ++ [⟨relativePath, .store, content⟩])

/-- The sentinel destination URL used by Archive and ArchiveWithFilter. -/
def devNulURL : Str := str "mem:///dev/nul"

/-- The walker of a plain Copy with the default handler into an in-memory
destination store. -/
def copyWalker (list : Str → Except Str (List Object))
    (download : Object → Except Str Bytes)
    (modify : Option (Bytes → Except Str Bytes)) : Walker Store where
  list := list
  download := download
  modify := modify
  probe := storeObject
  handler := copySourceToDestination storeUpload

/-- The walker of Archive: destination probes hit the fresh in-memory
service, which stays empty because the archive handler never uploads. -/
def archiveWalker (list : Str → Except Str (List Object))
    (download : Object → Except Str Bytes) : Walker (List ZipEntry) where
  list := list
  download := download
  modify := none
  probe := fun _ _ => none
  handler := getArchiveCopyHandler devNulURL

/-- The walker of ArchiveWithFilter. -/
def archiveFilterWalker (list : Str → Except Str (List Object))
    (download : Object → Except Str Bytes)
    (predicate : Object → Bool) : Walker (List ZipEntry) where
  list := list
  download := download
  modify := none
  probe := fun _ _ => none
  handler := getArchiveCopyHandlerWithFilter devNulURL predicate

/-- Archive of copy.go lines 166-170: Copy into a throwaway in-memory
service at the sentinel URL with the zip-writing handler. -/
def Archive (list : Str → Except Str (List Object))
    (download : Object → Except Str Bytes) (URL : Str) (fuel : Nat) :
    List Event × Except Str (List ZipEntry) :=
  Copy (archiveWalker list download) URL devNulURL [] fuel

/-- ArchiveWithFilter of copy.go lines 201-205. -/
def ArchiveWithFilter (list : Str → Except Str (List Object))
    (download : Object → Except Str Bytes) (URL : Str)
    (predicate : Object → Bool) (fuel : Nat) :
    List Event × Except Str (List ZipEntry) :=
  Copy (archiveFilterWalker list download predicate) URL devNulURL [] fuel

/-- Equality of Go results is decidable, so concrete runs can be checked
by evaluation. -/
instance {ε α : Type} [DecidableEq ε] [DecidableEq α] : DecidableEq (Except ε α) := fun a b =>
  match a, b with
  | .ok x, .ok y =>
    if h : x = y then isTrue (by rw [h]) else isFalse (fun hh => by cases hh; exact h rfl)
  | .error x, .error y =>
    if h : x = y then isTrue (by rw [h]) else isFalse (fun hh => by cases hh; exact h rfl)
  | .ok _, .error _ => isFalse (fun hh => by cases hh)
  | .error _, .ok _ => isFalse (fun hh => by cases hh)

/-- Remove one trailing slash, the final normalization step of urlPath. -/
def dropTrailingSlash (s : Str) : Str :=
  if s.getLast? = some '/' then s.dropLast else s

/-- The last path segment of u replaced by name; this renders the words of
claim C3 (the destination's last segment is replaced by the source's base
name) for comparison with the code. -/
def replaceLastSegment (u name : Str) : Str :=
  (u.reverse.dropWhile (· != '/')).reverse ++ name

lemma findIdx?_slash_pos {s : Str} {i : Nat} (hh : s.head? ≠ some '/')
    (hf : s.findIdx? (· == '/') = some i) : 0 < i := by
  cases s with
  | nil => simp [List.findIdx?] at hf
  | cons c t =>
    rw [List.findIdx?_cons] at hf
    by_cases hc : (c == '/') = true
    · exact absurd (eq_of_beq hc) (by simpa using hh)
    · rw [if_neg hc, List.findIdx?_succ] at hf
      rcases Option.map_eq_some'.1 hf with ⟨j, _, hj⟩
      omega

lemma urlPath_memPrefix (rest : Str) (hh : rest.head? = some '/') :
    urlPath (str "mem://" ++ rest) = dropTrailingSlash rest := by
  obtain ⟨t, rfl⟩ : ∃ t, rest = '/' :: t := by
    cases rest with
    | nil => simp at hh
    | cons c t => exact ⟨t, by simp_all⟩
  simp [urlPath, str, indexOfSub, List.isPrefixOf, List.findIdx?_cons, dropTrailingSlash]

/-- C10: for an input without a scheme marker, not starting with a slash
and containing a slash, urlPath drops everything before the first slash
(the first segment is treated as a host), e.g. urlPath "host/path" =
"/path"; for a URL with an empty host such as mem:///src the path after
the scheme is kept, apart from trailing-slash removal. -/
theorem c10_urlPath :
    (∀ (s : Str) (i : Nat), indexOfSub (str "://") s = none →
      s.head? ≠ some '/' → s.findIdx? (· == '/') = some i →
      urlPath s = dropTrailingSlash (s.drop i)) ∧
    urlPath (str "host/path") = str "/path" ∧
    (∀ rest : Str, rest.head? = some '/' →
      urlPath (str "mem://" ++ rest) = dropTrailingSlash rest) := by
  refine ⟨?_, by decide, fun rest hh => urlPath_memPrefix rest hh⟩
  intro s i hnone hh hf
  have hi : 0 < i := findIdx?_slash_pos hh hf
  unfold urlPath
  simp only [hnone, hf, if_pos hi]
  rfl

/-- C10 witness: the theorem applied at host/path/ and at mem:///src/. -/
theorem c10_urlPath_witness :
    urlPath (str "host/path/") = str "/path" ∧ urlPath (str "mem:///src/") = str "/src" := by
  have h := c10_urlPath
  constructor
  · exact (h.1 (str "host/path/") 4 (by decide) (by decide) (by decide)).trans (by decide)
  · have h2 := h.2.2 (str "/src/") (by decide)
    exact (show urlPath (str "mem:///src/") = _ from h2).trans (by decide)

/-- A one-file source for the C3 scenario: listing mem:///src/a.txt yields
the single content object, whose bytes are 1,2,3. -/
def c3List : Str → Except Str (List Object) := fun u =>
  if u = str "mem:///src/a.txt" then .ok [⟨str "mem:///src/a.txt", false⟩]
  else .error (str "no such path")

/-- Download for the C3 scenario. -/
def c3Download : Object → Except Str Bytes := fun o =>
  if o.url = str "mem:///src/a.txt" then .ok [1, 2, 3]
  else .error (str "no such object")

/-- C3 counterexample: copying mem:///src/a.txt to the dot-free destination
mem:///dst/b lands the content at mem:///dst/b/a.txt (the source base name
is appended to the destination URL), not at mem:///dst/a.txt as the claim's
replace-the-last-segment wording dictates; the branch conditions of the
claim's third case all hold at this input. -/
theorem c3_counterexample :
    (Copy (copyWalker c3List c3Download none) (str "mem:///src/a.txt")
        (str "mem:///dst/b") [] 2).2
      = .ok [(str "mem:///dst/b/a.txt", [1, 2, 3])] ∧
    replaceLastSegment (str "mem:///dst/b") (baseName (str "mem:///src/a.txt"))
      = str "mem:///dst/a.txt" ∧
    str "mem:///dst/b/a.txt" ≠ str "mem:///dst/a.txt" ∧
    (str "mem:///dst/b").getLast? ≠ some '/' ∧
    baseName (str "mem:///dst/b") ≠ baseName (str "mem:///src/a.txt") ∧
    ¬ (baseName (str "mem:///dst/b")).contains '.' = true := by
  decide

/-- C3 amended: for a content object processed at the top level, the
destination URL passed to the handler follows the four cases of the claim,
except that in the third case (base names differ and the destination name
is dot-free) the source base name is appended to the destination URL
rather than replacing its last segment. -/
theorem c3_amended (probe : Str → Option Object) (dURL dOURL oURL : Str) :
    (dOURL.getLast? = some '/' →
      topLevelDestination probe dURL dOURL oURL = urlPathJoin dOURL (baseName oURL)) ∧
    (dOURL.getLast? ≠ some '/' → (probe dOURL).map Object.isFolder = some true →
      topLevelDestination probe dURL dOURL oURL = urlPathJoin dOURL (baseName oURL)) ∧
    (dOURL.getLast? ≠ some '/' → (probe dOURL).map Object.isFolder ≠ some true →
      baseName dURL ≠ baseName oURL → ¬ (baseName dURL).contains '.' = true →
      topLevelDestination probe dURL dOURL oURL = urlPathJoin dURL (baseName oURL)) ∧
    (dOURL.getLast? ≠ some '/' → (probe dOURL).map Object.isFolder ≠ some true →
      (baseName dURL = baseName oURL ∨ (baseName dURL).contains '.' = true) →
      topLevelDestination probe dURL dOURL oURL = dOURL) := by
  refine ⟨fun h1 => ?_, fun h1 h2 => ?_, fun h1 h2 h3 h4 => ?_, fun h1 h2 h3 => ?_⟩
  · simp [topLevelDestination, h1]
  · have : (Option.map Object.isFolder (probe dOURL)).getD false = true := by
      rw [h2]; rfl
    simp [topLevelDestination, h1, this]
  · have hnf : (Option.map Object.isFolder (probe dOURL)).getD false = false := by
      rcases h : probe dOURL with _ | o
      · rfl
      · rcases hb : o.isFolder with _ | _
        · simp [hb]
        · exact absurd (by rw [h]; simp [hb]) h2
    have h4' : '.' ∉ baseName dURL := by simpa using h4
    simp [topLevelDestination, h1, hnf, h3, h4']
  · have hnf : (Option.map Object.isFolder (probe dOURL)).getD false = false := by
      rcases h : probe dOURL with _ | o
      · rfl
      · rcases hb : o.isFolder with _ | _
        · simp [hb]
        · exact absurd (by rw [h]; simp [hb]) h2
    rcases h3 with h3 | h3
    · simp [topLevelDestination, h1, hnf, h3]
    · have h3' : '.' ∈ baseName dURL := by simpa using h3
      simp [topLevelDestination, h1, hnf, h3']

/-- C3 witness: the amended rule applied in each of the four cases. -/
theorem c3_amended_witness :
    topLevelDestination (fun _ => none) (str "mem:///dst/") (str "mem:///dst/")
        (str "mem:///src/a.txt") = str "mem:///dst/a.txt" ∧
    topLevelDestination (fun u => some ⟨u, true⟩) (str "mem:///dst") (str "mem:///dst")
        (str "mem:///src/a.txt") = str "mem:///dst/a.txt" ∧
    topLevelDestination (fun _ => none) (str "mem:///dst") (str "mem:///dst")
        (str "mem:///src/a.txt") = str "mem:///dst/a.txt" ∧
    topLevelDestination (fun _ => none) (str "mem:///dst/b.txt") (str "mem:///dst/b.txt")
        (str "mem:///src/a.txt") = str "mem:///dst/b.txt" := by
  refine ⟨?_, ?_, ?_, ?_⟩
  · exact ((c3_amended _ _ _ _).1 (by decide)).trans (by decide)
  · exact ((c3_amended _ _ _ _).2.1 (by decide) (by decide)).trans (by decide)
  · exact ((c3_amended _ _ _ _).2.2.1 (by decide) (by decide) (by decide) (by decide)).trans (by decide)
  · exact ((c3_amended _ _ _ _).2.2.2 (by decide) (by decide) (Or.inr (by decide)))

/-- C7: a listed folder object whose canonical path equals the source
root's canonical path, or, for a non-empty subPath, equals the join of the
root's canonical path with subPath, is skipped: processing the listing
with it equals processing the listing without it, so it is neither
recursed into nor passed to the handler and it leaves the loop state
unchanged. -/
theorem c7_skip_guard {σ : Type} (w : Walker σ)
    (recurse : Str → σ → List Event × Except Str σ)
    (dURL subPath srcPath rel : Str) (o : Object) (rest : List Object) (s : σ)
    (hf : o.isFolder = true)
    (hskip : urlPath o.url = srcPath ∨ (subPath ≠ [] ∧ urlPath o.url = urlPathJoin srcPath subPath)) :
    copyLoop w recurse dURL subPath srcPath (o :: rest) rel s
      = copyLoop w recurse dURL subPath srcPath rest rel s := by
  have hstep : copyStep w recurse dURL subPath srcPath o rel s = ([], rel, .ok s) := by
    unfold copyStep
    rw [if_pos ⟨hf, hskip⟩]
  conv_lhs => rw [copyLoop]
  simp only [hstep, List.nil_append]

/-- C7 witness: the self-reference guard on a concrete walker; the folder
object equal to the root is dropped from a listing. -/
theorem c7_skip_guard_witness :
    copyLoop (copyWalker c3List c3Download none)
        (fun _ s => ([], .ok s)) (str "mem:///dst") [] (str "/src")
        ([⟨str "mem:///src", true⟩] : List Object) [] ([] : Store)
      = ([], .ok ([] : Store)) := by
  rw [c7_skip_guard _ _ _ _ _ _ _ _ _ rfl (Or.inl (by decide))]
  rfl

/-- A two-object listing for the C4 scenario: the source root lists a
child content object first and then a content object whose canonical path
equals the root's own. -/
def c4List : Str → Except Str (List Object) := fun u =>
  if u = str "mem:///src" then
    .ok [⟨str "mem:///src/x", false⟩, ⟨str "mem:///src", false⟩]
  else .error (str "no such path")

/-- Download for the C4 scenario. -/
def c4Download : Object → Except Str Bytes := fun o =>
  if o.url = str "mem:///src/x" then .ok [1]
  else if o.url = str "mem:///src" then .ok [2]
  else .error (str "no such object")

/-- C4 counterexample: in a listing whose second object has a canonical
path equal to the source root's, the loop variable keeps the previous
object's relative path (x), so the second object is handled at
mem:///dst.txt/x, not at the destination URL itself as the claim's
empty-relative-path clause dictates. -/
theorem c4_counterexample :
    (Copy (copyWalker c4List c4Download none) (str "mem:///src")
        (str "mem:///dst.txt") [] 2).1
      = [.listed (str "mem:///src")
            [⟨str "mem:///src/x", false⟩, ⟨str "mem:///src", false⟩],
         .handled ⟨str "mem:///src/x", false⟩ (str "mem:///dst.txt/x") [1],
         .handled ⟨str "mem:///src", false⟩ (str "mem:///dst.txt/x") [2]] ∧
    str "mem:///dst.txt/x" ≠ str "mem:///dst.txt" := by
  decide

/-- C4 amended: the relative path used for a listed object is the object's
canonical path with the first length-of-root characters removed and one
leading slash stripped whenever the object's canonical path is strictly
longer than the root's; otherwise the loop variable keeps the value
computed for the most recent earlier object (initially empty), even when
the object's canonical path equals the root's. -/
theorem c4_amended (srcPath objPath prev : Str) :
    (srcPath.length < objPath.length →
      nextRelativePath srcPath objPath prev = stripLeadingSlash (objPath.drop srcPath.length)) ∧
    (∀ suffix : Str, suffix ≠ [] →
      nextRelativePath srcPath (srcPath ++ suffix) prev = stripLeadingSlash suffix) ∧
    (¬ srcPath.length < objPath.length → nextRelativePath srcPath objPath prev = prev) := by
  refine ⟨fun h => by rw [nextRelativePath, if_pos h], fun suffix hs => ?_, fun h => by
    rw [nextRelativePath, if_neg h]⟩
  have hlen : srcPath.length < (srcPath ++ suffix).length := by
    simp [List.length_append]
    exact List.length_pos.2 hs
  rw [nextRelativePath, if_pos hlen, List.drop_left]

/-- C4 witness: the amended rule at concrete inputs, covering the longer,
prefix and not-longer cases. -/
theorem c4_amended_witness :
    nextRelativePath (str "/src") (str "/src/x") (str "p") = str "x" ∧
    nextRelativePath (str "/src") (str "/src") (str "p") = str "p" := by
  constructor
  · exact ((c4_amended (str "/src") (str "/src/x") (str "p")).1 (by decide)).trans (by decide)
  · exact (c4_amended (str "/src") (str "/src") (str "p")).2.2 (by decide)

lemma copyLoop_error_append {σ : Type} (w : Walker σ)
    (recurse : Str → σ → List Event × Except Str σ)
    (dURL subPath srcPath : Str) (l1 l2 : List Object) (rel : Str) (st : σ)
    (evs : List Event) (e : Str)
    (h : copyLoop w recurse dURL subPath srcPath l1 rel st = (evs, .error e)) :
    copyLoop w recurse dURL subPath srcPath (l1 ++ l2) rel st = (evs, .error e) := by
  induction l1 generalizing rel st evs with
  | nil => exact absurd (congrArg Prod.snd h) (by simp [copyLoop])
  | cons o rest ih =>
    rw [List.cons_append]
    rw [copyLoop] at h ⊢
    rcases hs : copyStep w recurse dURL subPath srcPath o rel st with ⟨evs0, rel', r0⟩
    cases r0 with
    | error e' =>
      simp only [hs] at h ⊢
      exact h
    | ok s' =>
      simp only [hs] at h ⊢
      rcases hr : copyLoop w recurse dURL subPath srcPath rest rel' s' with ⟨evs1, r1⟩
      simp only [hr] at h
      injection h with h1 h2
      subst h1
      subst h2
      rw [ih _ _ _ hr]

/-- C6: the walk aborts at the first failure and Copy wraps the failure.
First conjunct: a walk failure makes Copy return the same events and the
error message failed to copy src - to - dst - cause; second conjunct: Copy
returns the walk's result unwrapped when every step succeeded; third
conjunct: an error while processing a prefix of a listing makes the loop
return that very outcome on any extension of the listing, so no further
object is listed or handled. -/
theorem c6_error_handling {σ : Type} (w : Walker σ) (sourceURL destinationURL : Str)
    (fuel : Nat) (s : σ) :
    (∀ evs e, copyStorageContent w sourceURL destinationURL fuel [] s = (evs, .error e) →
      Copy w sourceURL destinationURL s fuel
        = (evs, .error (str "failed to copy " ++ sourceURL ++ str " -> " ++ destinationURL
            ++ str ": " ++ e))) ∧
    (∀ evs s', copyStorageContent w sourceURL destinationURL fuel [] s = (evs, .ok s') →
      Copy w sourceURL destinationURL s fuel = (evs, .ok s')) ∧
    (∀ recurse dURL subPath srcPath l1 l2 rel st evs e,
      copyLoop w recurse dURL subPath srcPath l1 rel st = (evs, .error e) →
      copyLoop w recurse dURL subPath srcPath (l1 ++ l2) rel st = (evs, .error e)) := by
  refine ⟨fun evs e h => ?_, fun evs s' h => ?_, fun recurse dURL subPath srcPath l1 l2 rel st evs e h =>
    copyLoop_error_append w recurse dURL subPath srcPath l1 l2 rel st evs e h⟩
  · unfold Copy
    rw [h]
  · unfold Copy
    rw [h]

/-- A failing source for the C6 witness: the root lists one content object
whose download fails. -/
def c6List : Str → Except Str (List Object) := fun u =>
  if u = str "mem:///src" then .ok [⟨str "mem:///src/bad", false⟩]
  else .error (str "no such path")

/-- Download for the C6 witness always fails. -/
def c6Download : Object → Except Str Bytes := fun _ => .error (str "io failure")

/-- C6 witness: the wrapped message on a concrete failing run, and the
abort of a concrete extended listing. -/
theorem c6_error_handling_witness :
    Copy (copyWalker c6List c6Download none) (str "mem:///src") (str "mem:///dst") [] 2
      = ([.listed (str "mem:///src") [⟨str "mem:///src/bad", false⟩]],
         .error (str "failed to copy mem:///src -> mem:///dst: unable download, mem:///src/bad -> mem:///dst/bad, io failure")) ∧
    copyLoop (copyWalker c6List c6Download none) (fun _ s => ([], .ok s))
        (str "mem:///dst") [] (str "/src")
        ([⟨str "mem:///src/bad", false⟩, ⟨str "mem:///src/later", false⟩] : List Object) [] []
      = ([], .error (str "unable download, mem:///src/bad -> mem:///dst/bad, io failure")) := by
  constructor
  · exact (c6_error_handling (copyWalker c6List c6Download none) (str "mem:///src")
      (str "mem:///dst") 2 []).1 _ _ (by decide)
  · exact (c6_error_handling (copyWalker c6List c6Download none) (str "mem:///src")
      (str "mem:///dst") 2 []).2.2 (fun _ s => ([], .ok s)) (str "mem:///dst") [] (str "/src")
      [⟨str "mem:///src/bad", false⟩] [⟨str "mem:///src/later", false⟩] [] [] [] _ (by decide)

/-- The destination URL a content step hands to the copy handler: the
computed destinationObjectURL, disambiguated at the top level. -/
def stepHandlerURL {σ : Type} (w : Walker σ) (destinationURL subPath dO : Str)
    (object : Object) (s : σ) : Str :=
  if subPath = [] then topLevelDestination (w.probe s) destinationURL dO object.url
  else dO

lemma copyContentStep_inv {σ : Type} (w : Walker σ) (dURL subPath : Str) (o : Object)
    (rel0 dO0 : Str) (s : σ) (evs : List Event) (rel' : Str) (r : Except Str σ)
    (h : copyContentStep w dURL subPath o rel0 dO0 s = (evs, rel', r)) :
    rel' = rel0 ∧
    (∀ s', r = .ok s' → ∃ content content',
      w.download o = .ok content ∧
      applyModify w.modify o.url dO0 content = .ok content' ∧
      w.handler o content' s (stepHandlerURL w dURL subPath dO0 o s) = .ok s' ∧
      evs = [.handled o (stepHandlerURL w dURL subPath dO0 o s) content']) ∧
    (∀ ev ∈ evs, ∃ content content',
      w.download o = .ok content ∧
      applyModify w.modify o.url dO0 content = .ok content' ∧
      ev = .handled o (stepHandlerURL w dURL subPath dO0 o s) content') := by
  unfold copyContentStep at h
  rcases hdl : w.download o with e | content
  · simp only [hdl] at h
    obtain ⟨h1, h2, h3⟩ : ([] : List Event) = evs ∧ rel0 = rel' ∧ _ = r := by simpa using h
    refine ⟨h2.symm, fun s' hs' => ?_, fun ev hev => ?_⟩
    · rw [← h3] at hs'
      cases hs'
    · rw [← h1] at hev
      cases hev
  · simp only [hdl] at h
    rcases hmod : applyModify w.modify o.url dO0 content with e | content'
    · simp only [hmod] at h
      obtain ⟨h1, h2, h3⟩ : ([] : List Event) = evs ∧ rel0 = rel' ∧ _ = r := by simpa using h
      refine ⟨h2.symm, fun s' hs' => ?_, fun ev hev => ?_⟩
      · rw [← h3] at hs'
        cases hs'
      · rw [← h1] at hev
        cases hev
    · simp only [hmod] at h
      rcases hha : w.handler o content' s
          (if subPath = [] then topLevelDestination (w.probe s) dURL dO0 o.url else dO0)
          with e | s0
      · simp only [hha] at h
        obtain ⟨h1, h2, h3⟩ :
            [Event.handled o (if subPath = [] then
              topLevelDestination (w.probe s) dURL dO0 o.url else dO0) content'] = evs ∧
            rel0 = rel' ∧ Except.error e = r := by simpa using h
        refine ⟨h2.symm, fun s' hs' => ?_, fun ev hev => ?_⟩
        · rw [← h3] at hs'
          cases hs'
        · rw [← h1, List.mem_singleton] at hev
          exact ⟨content, content', rfl, hmod, hev⟩
      · simp only [hha] at h
        obtain ⟨h1, h2, h3⟩ :
            [Event.handled o (if subPath = [] then
              topLevelDestination (w.probe s) dURL dO0 o.url else dO0) content'] = evs ∧
            rel0 = rel' ∧ Except.ok s0 = r := by simpa using h
        refine ⟨h2.symm, fun s' hs' => ?_, fun ev hev => ?_⟩
        · rw [← h3] at hs'
          injection hs' with hs'
          exact ⟨content, content', rfl, hmod, hs' ▸ hha, h1.symm⟩
        · rw [← h1, List.mem_singleton] at hev
          exact ⟨content, content', rfl, hmod, hev⟩

lemma copyStep_cases {σ : Type} (w : Walker σ)
    (recurse : Str → σ → List Event × Except Str σ)
    (dURL subPath srcPath : Str) (o : Object) (rel : Str) (s : σ) :
    copyStep w recurse dURL subPath srcPath o rel s = ([], rel, .ok s) ∧ skipGuard subPath srcPath o ∨
    (¬ skipGuard subPath srcPath o ∧ o.isContent = true ∧
      copyStep w recurse dURL subPath srcPath o rel s
        = copyContentStep w dURL subPath o (nextRelativePath srcPath (urlPath o.url) rel)
            (if nextRelativePath srcPath (urlPath o.url) rel ≠ [] then
              urlPathJoin dURL (nextRelativePath srcPath (urlPath o.url) rel)
            else dURL) s) ∨
    (¬ skipGuard subPath srcPath o ∧ o.isContent ≠ true ∧
      copyStep w recurse dURL subPath srcPath o rel s
        = ((recurse (nextRelativePath srcPath (urlPath o.url) rel) s).1,
            nextRelativePath srcPath (urlPath o.url) rel,
            match (recurse (nextRelativePath srcPath (urlPath o.url) rel) s).2 with
            | .error e => .error e
            | .ok s' => .ok s')) := by
  by_cases hskip : skipGuard subPath srcPath o
  · exact Or.inl ⟨by rw [copyStep, if_pos hskip], hskip⟩
  · by_cases hc : o.isContent = true
    · refine Or.inr (Or.inl ⟨hskip, hc, ?_⟩)
      rw [copyStep, if_neg hskip]
      simp only [if_pos hc]
    · refine Or.inr (Or.inr ⟨hskip, hc, ?_⟩)
      rw [copyStep, if_neg hskip]
      simp only [if_neg hc]
      rcases hr : recurse (nextRelativePath srcPath (urlPath o.url) rel) s with ⟨evs0, r0⟩
      cases r0 <;> rfl

lemma copyStep_preserves {σ : Type} (w : Walker σ) (P : σ → Prop)
    (hh : ∀ o b st u s', w.handler o b st u = .ok s' → P st → P s')
    (recurse : Str → σ → List Event × Except Str σ)
    (hrec : ∀ rp st evs s', recurse rp st = (evs, .ok s') → P st → P s')
    (dURL subPath srcPath : Str) (o : Object) (rel : Str) (s : σ)
    (evs : List Event) (rel' : Str) (s' : σ)
    (hstep : copyStep w recurse dURL subPath srcPath o rel s = (evs, rel', .ok s'))
    (hP : P s) : P s' := by
  rcases copyStep_cases w recurse dURL subPath srcPath o rel s with ⟨he, -⟩ | ⟨-, -, he⟩ | ⟨-, -, he⟩
  · rw [he] at hstep
    obtain ⟨-, -, h3⟩ : ([] : List Event) = evs ∧ rel = rel' ∧ s = s' := by simpa using hstep
    exact h3 ▸ hP
  · rw [he] at hstep
    obtain ⟨-, hok, -⟩ := copyContentStep_inv w dURL subPath o _ _ s evs rel' _ hstep
    obtain ⟨content, content', -, -, hha, -⟩ := hok s' rfl
    exact hh _ _ _ _ _ hha hP
  · rw [he] at hstep
    rcases hr : recurse (nextRelativePath srcPath (urlPath o.url) rel) s with ⟨evs0, r0⟩
    rw [hr] at hstep
    cases r0 with
    | error e => simp at hstep
    | ok s0 =>
      obtain ⟨h1, -, h3⟩ : evs0 = evs ∧ _ ∧ s0 = s' := by simpa using hstep
      exact hrec _ _ _ _ (h1 ▸ h3 ▸ hr) hP

lemma copyLoop_preserves {σ : Type} (w : Walker σ) (P : σ → Prop)
    (hh : ∀ o b st u s', w.handler o b st u = .ok s' → P st → P s')
    (recurse : Str → σ → List Event × Except Str σ)
    (hrec : ∀ rp st evs s', recurse rp st = (evs, .ok s') → P st → P s')
    (dURL subPath srcPath : Str) (l : List Object) (rel : Str) (s : σ)
    (evs : List Event) (s' : σ)
    (hl : copyLoop w recurse dURL subPath srcPath l rel s = (evs, .ok s'))
    (hP : P s) : P s' := by
  induction l generalizing rel s evs with
  | nil =>
    obtain ⟨-, h2⟩ : ([] : List Event) = evs ∧ s = s' := by
      rw [copyLoop] at hl
      simpa using hl
    exact h2 ▸ hP
  | cons o rest ih =>
    rw [copyLoop] at hl
    rcases hs : copyStep w recurse dURL subPath srcPath o rel s with ⟨evs0, rel', r0⟩
    cases r0 with
    | error e =>
      rw [hs] at hl
      simp at hl
    | ok s0 =>
      rw [hs] at hl
      rcases hr : copyLoop w recurse dURL subPath srcPath rest rel' s0 with ⟨evs1, r1⟩
      simp only [hr] at hl
      cases r1 with
      | error e => simp at hl
      | ok s1 =>
        obtain ⟨-, h2⟩ : _ ∧ s1 = s' := by simpa using hl
        subst h2
        exact ih _ _ _ hr
          (copyStep_preserves w P hh recurse hrec dURL subPath srcPath o rel s evs0 rel' s0 hs hP)

lemma copyStorageContent_preserves {σ : Type} (w : Walker σ) (P : σ → Prop)
    (hh : ∀ o b st u s', w.handler o b st u = .ok s' → P st → P s')
    (sourceURL destinationURL : Str) (fuel : Nat) (subPath : Str) (s : σ)
    (evs : List Event) (s' : σ)
    (hw : copyStorageContent w sourceURL destinationURL fuel subPath s = (evs, .ok s'))
    (hP : P s) : P s' := by
  induction fuel generalizing subPath s evs s' with
  | zero =>
    rw [copyStorageContent] at hw
    simp at hw
  | succ fuel ih =>
    rw [copyStorageContent] at hw
    rcases hls : w.list (if subPath ≠ [] then urlPathJoin sourceURL subPath else sourceURL)
        with e | objects
    · rw [hls] at hw
      simp at hw
    · rw [hls] at hw
      rcases hl : copyLoop w (copyStorageContent w sourceURL destinationURL fuel)
          destinationURL subPath (urlPath sourceURL) objects [] s with ⟨evs1, r1⟩
      simp only [hl] at hw
      cases r1 with
      | error e => simp at hw
      | ok s1 =>
        obtain ⟨-, h2⟩ : _ ∧ s1 = s' := by simpa using hw
        subst h2
        exact copyLoop_preserves w P hh _ (fun rp st evs2 s2 h hp => ih rp st evs2 s2 h hp)
          destinationURL subPath (urlPath sourceURL) objects [] s evs1 s1 hl hP

lemma Copy_ok_inv {σ : Type} (w : Walker σ) (srcURL dstURL : Str) (s : σ) (fuel : Nat)
    (evs : List Event) (s' : σ) (h : Copy w srcURL dstURL s fuel = (evs, .ok s')) :
    copyStorageContent w srcURL dstURL fuel [] s = (evs, .ok s') := by
  unfold Copy at h
  rcases hw : copyStorageContent w srcURL dstURL fuel [] s with ⟨evs0, r0⟩
  rw [hw] at h
  cases r0 with
  | error e => simp at h
  | ok s0 =>
    obtain ⟨h1, h2⟩ : evs0 = evs ∧ s0 = s' := by simpa using h
    rw [h1, h2]

/-- C9: every zip entry present in the result of a successful Archive has
compression method Deflate, and every entry in the result of a successful
ArchiveWithFilter has compression method Store. -/
theorem c9_zip_methods (list : Str → Except Str (List Object))
    (download : Object → Except Str Bytes) (URL : Str) (fuel : Nat)
    (predicate : Object → Bool) :
    (∀ evs entries, Archive list download URL fuel = (evs, .ok entries) →
      ∀ en ∈ entries, en.method = ZipMethod.deflate) ∧
    (∀ evs entries, ArchiveWithFilter list download URL predicate fuel = (evs, .ok entries) →
      ∀ en ∈ entries, en.method = ZipMethod.store) := by
  constructor
  · intro evs entries h
    have hw := Copy_ok_inv _ _ _ _ _ _ _ h
    refine copyStorageContent_preserves (archiveWalker list download)
      (fun st => ∀ en ∈ st, en.method = ZipMethod.deflate) ?_ URL devNulURL fuel [] []
      evs entries hw (by simp)
    intro o b st u s' hh hp en hen
    simp only [archiveWalker] at hh
    unfold getArchiveCopyHandler at hh
    injection hh with hh
    rw [← hh] at hen
    rcases List.mem_append.1 hen with hmem | hmem
    · exact hp en hmem
    · rw [List.mem_singleton] at hmem
      rw [hmem]
  · intro evs entries h
    have hw := Copy_ok_inv _ _ _ _ _ _ _ h
    refine copyStorageContent_preserves (archiveFilterWalker list download predicate)
      (fun st => ∀ en ∈ st, en.method = ZipMethod.store) ?_ URL devNulURL fuel [] []
      evs entries hw (by simp)
    intro o b st u s' hh hp en hen
    simp only [archiveFilterWalker] at hh
    unfold getArchiveCopyHandlerWithFilter at hh
    split at hh
    · injection hh with hh
      rw [← hh] at hen
      exact hp en hen
    · injection hh with hh
      rw [← hh] at hen
      rcases List.mem_append.1 hen with hmem | hmem
      · exact hp en hmem
      · rw [List.mem_singleton] at hmem
        rw [hmem]

/-- A one-file tree source for the C9 witness. -/
def c9List : Str → Except Str (List Object) := fun u =>
  if u = str "mem:///src" then
    .ok [⟨str "mem:///src", true⟩, ⟨str "mem:///src/a.txt", false⟩]
  else .error (str "no such path")

/-- Download for the C9 witness. -/
def c9Download : Object → Except Str Bytes := fun o =>
  if o.url = str "mem:///src/a.txt" then .ok [5] else .error (str "no such object")

/-- C9 witness: the theorem applied to a concrete archive run on a
one-file tree, for both variants. -/
theorem c9_zip_methods_witness :
    (ZipEntry.mk (str "/a.txt") ZipMethod.deflate [5]).method = ZipMethod.deflate ∧
    (ZipEntry.mk (str "a.txt") ZipMethod.store [5]).method = ZipMethod.store := by
  constructor
  · exact (c9_zip_methods c9List c9Download (str "mem:///src") 2 (fun _ => true)).1
      [.listed (str "mem:///src")
          [⟨str "mem:///src", true⟩, ⟨str "mem:///src/a.txt", false⟩],
        .handled ⟨str "mem:///src/a.txt", false⟩ (str "mem:///dev/nul/a.txt") [5]]
      [⟨str "/a.txt", ZipMethod.deflate, [5]⟩] (by decide) _ (by decide)
  · exact (c9_zip_methods c9List c9Download (str "mem:///src") 2 (fun _ => true)).2
      [.listed (str "mem:///src")
          [⟨str "mem:///src", true⟩, ⟨str "mem:///src/a.txt", false⟩],
        .handled ⟨str "mem:///src/a.txt", false⟩ (str "mem:///dev/nul/a.txt") [5]]
      [⟨str "a.txt", ZipMethod.store, [5]⟩] (by decide) _ (by decide)

/-- The relation between the source bytes of a content object and the
bytes handed to the copy handler: equal when no ModificationHandler is
set, the handler's output otherwise. -/
def modifyOk (modify : Option (Bytes → Except Str Bytes)) (src b : Bytes) : Prop :=
  match modify with
  | none => b = src
  | some mh => mh src = .ok b

lemma applyModify_ok {modify : Option (Bytes → Except Str Bytes)} {u1 u2 : Str}
    {src b : Bytes} (h : applyModify modify u1 u2 src = .ok b) : modifyOk modify src b := by
  unfold applyModify at h
  cases modify with
  | none =>
    injection h with h
    exact h.symm
  | some mh =>
    show mh src = .ok b
    rcases hm : mh src with e | c
    · simp only [hm] at h
      simp at h
    · simp only [hm] at h
      injection h with h
      rw [h]

/-- Provenance of a walk event: a handled event always carries a content
object together with bytes obtained from its downloaded source bytes via
the optional modification handler. -/
def goodHandled (w : Walker σ) : Event → Prop
  | .listed _ _ => True
  | .handled o _ b => o.isContent = true ∧ ∃ src, w.download o = .ok src ∧ modifyOk w.modify src b

lemma copyStep_events {σ : Type} (w : Walker σ)
    (recurse : Str → σ → List Event × Except Str σ)
    (hrec : ∀ rp st, ∀ ev ∈ (recurse rp st).1, goodHandled w ev)
    (dURL subPath srcPath : Str) (o : Object) (rel : Str) (s : σ) :
    ∀ ev ∈ (copyStep w recurse dURL subPath srcPath o rel s).1, goodHandled w ev := by
  rcases copyStep_cases w recurse dURL subPath srcPath o rel s with ⟨he, -⟩ | ⟨-, hc, he⟩ | ⟨-, -, he⟩
  · rw [he]
    intro ev hev
    cases hev
  · rw [he]
    intro ev hev
    rcases hst : copyContentStep w dURL subPath o
        (nextRelativePath srcPath (urlPath o.url) rel)
        (if nextRelativePath srcPath (urlPath o.url) rel ≠ [] then
          urlPathJoin dURL (nextRelativePath srcPath (urlPath o.url) rel)
        else dURL) s with ⟨evs, rel', r⟩
    rw [hst] at hev
    obtain ⟨-, -, hevs⟩ := copyContentStep_inv w dURL subPath o _ _ s evs rel' r hst
    obtain ⟨content, content', hdl, hmod, hev'⟩ := hevs ev (by simpa using hev)
    subst hev'
    exact ⟨hc, content, hdl, applyModify_ok hmod⟩
  · rw [he]
    intro ev hev
    exact hrec _ _ ev (by simpa using hev)

lemma copyLoop_events {σ : Type} (w : Walker σ)
    (recurse : Str → σ → List Event × Except Str σ)
    (hrec : ∀ rp st, ∀ ev ∈ (recurse rp st).1, goodHandled w ev)
    (dURL subPath srcPath : Str) (l : List Object) :
    ∀ rel s, ∀ ev ∈ (copyLoop w recurse dURL subPath srcPath l rel s).1, goodHandled w ev := by
  induction l with
  | nil =>
    intro rel s ev hev
    rw [copyLoop] at hev
    cases hev
  | cons o rest ih =>
    intro rel s ev hev
    rw [copyLoop] at hev
    rcases hs : copyStep w recurse dURL subPath srcPath o rel s with ⟨evs0, rel', r0⟩
    cases r0 with
    | error e =>
      simp only [hs] at hev
      exact copyStep_events w recurse hrec dURL subPath srcPath o rel s ev (by rw [hs]; exact hev)
    | ok s0 =>
      simp only [hs] at hev
      rcases List.mem_append.1 hev with hmem | hmem
      · exact copyStep_events w recurse hrec dURL subPath srcPath o rel s ev
          (by rw [hs]; exact hmem)
      · exact ih rel' s0 ev hmem

lemma copyStorageContent_events {σ : Type} (w : Walker σ) (sourceURL destinationURL : Str) :
    ∀ fuel subPath s, ∀ ev ∈ (copyStorageContent w sourceURL destinationURL fuel subPath s).1,
      goodHandled w ev := by
  intro fuel
  induction fuel with
  | zero =>
    intro subPath s ev hev
    rw [copyStorageContent] at hev
    cases hev
  | succ fuel ih =>
    intro subPath s ev hev
    rw [copyStorageContent] at hev
    rcases hls : w.list (if subPath ≠ [] then urlPathJoin sourceURL subPath else sourceURL)
        with e | objects
    · simp only [hls] at hev
      cases hev
    · simp only [hls] at hev
      rcases List.mem_cons.1 hev with hev1 | hev1
      · subst hev1
        trivial
      · exact copyLoop_events w (copyStorageContent w sourceURL destinationURL fuel)
          (fun rp st => ih rp st) destinationURL subPath (urlPath sourceURL) objects [] s ev hev1

/-- The objects passed to the copy handler during a walk, one occurrence
per handler invocation, in order. -/
def handledObjs : List Event → List Object
  | [] => []
  | .handled o _ _ :: es => o :: handledObjs es
  | .listed _ _ :: es => handledObjs es

/-- The content objects returned by the List calls of a walk, in order. -/
def listedContents : List Event → List Object
  | [] => []
  | .listed _ objs :: es => objs.filter (fun o => o.isContent) ++ listedContents es
  | .handled _ _ _ :: es => listedContents es

lemma handledObjs_append (a b : List Event) :
    handledObjs (a ++ b) = handledObjs a ++ handledObjs b := by
  induction a with
  | nil => rfl
  | cons ev rest ih =>
    cases ev with
    | listed u objs => simp [handledObjs, ih]
    | handled o u c => simp [handledObjs, ih]

lemma listedContents_append (a b : List Event) :
    listedContents (a ++ b) = listedContents a ++ listedContents b := by
  induction a with
  | nil => rfl
  | cons ev rest ih =>
    cases ev with
    | listed u objs => simp [listedContents, ih]
    | handled o u c => simp [listedContents, ih]

lemma perm_middle_swap {α : Type} (A X B R : List α) :
    List.Perm ((A ++ X) ++ (B ++ R)) ((A ++ B) ++ (X ++ R)) := by
  have h1 : (A ++ X) ++ (B ++ R) = A ++ ((X ++ B) ++ R) := by simp [List.append_assoc]
  have h2 : (A ++ B) ++ (X ++ R) = A ++ ((B ++ X) ++ R) := by simp [List.append_assoc]
  rw [h1, h2]
  exact List.Perm.append_left A (List.Perm.append_right R List.perm_append_comm)

lemma copyStep_perm {σ : Type} (w : Walker σ)
    (recurse : Str → σ → List Event × Except Str σ)
    (hrec : ∀ rp st evs s', recurse rp st = (evs, .ok s') →
      (handledObjs evs).Perm (listedContents evs))
    (dURL subPath srcPath : Str) (o : Object) (rel : Str) (s : σ)
    (evs : List Event) (rel' : Str) (s' : σ)
    (hstep : copyStep w recurse dURL subPath srcPath o rel s = (evs, rel', .ok s')) :
    (handledObjs evs).Perm (listedContents evs
      ++ if o.isContent = true then [o] else []) := by
  rcases copyStep_cases w recurse dURL subPath srcPath o rel s with ⟨he, hsk⟩ | ⟨-, hc, he⟩ | ⟨-, hc, he⟩
  · rw [he] at hstep
    obtain ⟨h1, -, -⟩ : ([] : List Event) = evs ∧ rel = rel' ∧ s = s' := by simpa using hstep
    have hcont : o.isContent = false := by
      unfold Object.isContent
      rw [hsk.1]
      rfl
    rw [← h1, hcont]
    simp [handledObjs, listedContents]
  · rw [he] at hstep
    obtain ⟨-, hok, -⟩ := copyContentStep_inv w dURL subPath o _ _ s evs rel' _ hstep
    obtain ⟨content, content', -, -, -, hevs⟩ := hok s' rfl
    subst hevs
    rw [hc]
    simp [handledObjs, listedContents]
  · rw [he] at hstep
    rcases hr : recurse (nextRelativePath srcPath (urlPath o.url) rel) s with ⟨evs0, r0⟩
    rw [hr] at hstep
    cases r0 with
    | error e => simp at hstep
    | ok s0 =>
      obtain ⟨h1, -, -⟩ : evs0 = evs ∧ _ ∧ s0 = s' := by simpa using hstep
      have hcont : (if o.isContent = true then [o] else ([] : List Object)) = [] := by
        simp [hc]
      rw [hcont, ← h1, List.append_nil]
      exact hrec _ _ _ _ hr

lemma copyLoop_perm {σ : Type} (w : Walker σ)
    (recurse : Str → σ → List Event × Except Str σ)
    (hrec : ∀ rp st evs s', recurse rp st = (evs, .ok s') →
      (handledObjs evs).Perm (listedContents evs))
    (dURL subPath srcPath : Str) (l : List Object) :
    ∀ rel s evs s', copyLoop w recurse dURL subPath srcPath l rel s = (evs, .ok s') →
      (handledObjs evs).Perm (listedContents evs
        ++ l.filter (fun o => o.isContent)) := by
  induction l with
  | nil =>
    intro rel s evs s' h
    obtain ⟨h1, -⟩ : ([] : List Event) = evs ∧ s = s' := by
      rw [copyLoop] at h
      simpa using h
    rw [← h1]
    simp [handledObjs, listedContents]
  | cons o rest ih =>
    intro rel s evs s' h
    rw [copyLoop] at h
    rcases hs : copyStep w recurse dURL subPath srcPath o rel s with ⟨evs0, rel', r0⟩
    cases r0 with
    | error e =>
      rw [hs] at h
      simp at h
    | ok s0 =>
      simp only [hs] at h
      rcases hl : copyLoop w recurse dURL subPath srcPath rest rel' s0 with ⟨evs1, r1⟩
      simp only [hl] at h
      cases r1 with
      | error e => simp at h
      | ok s1 =>
        obtain ⟨h1, -⟩ : evs0 ++ evs1 = evs ∧ s1 = s' := by simpa using h
        subst h1
        have hperm0 := copyStep_perm w recurse hrec dURL subPath srcPath o rel s evs0 rel' s0 hs
        have hperm1 := ih rel' s0 evs1 s1 hl
        rw [handledObjs_append, listedContents_append]
        have hfil : (if o.isContent = true then [o] else [])
            ++ rest.filter (fun o => o.isContent)
            = List.filter (fun o => o.isContent) (o :: rest) := by
          rcases hc : o.isContent with _ | _ <;> simp [List.filter_cons, hc]
        refine (hperm0.append hperm1).trans ?_
        rw [← hfil]
        exact perm_middle_swap _ _ _ _

lemma copyStorageContent_perm {σ : Type} (w : Walker σ) (sourceURL destinationURL : Str) :
    ∀ fuel subPath s evs s',
      copyStorageContent w sourceURL destinationURL fuel subPath s = (evs, .ok s') →
      (handledObjs evs).Perm (listedContents evs) := by
  intro fuel
  induction fuel with
  | zero =>
    intro subPath s evs s' h
    rw [copyStorageContent] at h
    simp at h
  | succ fuel ih =>
    intro subPath s evs s' h
    rw [copyStorageContent] at h
    rcases hls : w.list (if subPath ≠ [] then urlPathJoin sourceURL subPath else sourceURL)
        with e | objects
    · rw [hls] at h
      simp at h
    · simp only [hls] at h
      rcases hl : copyLoop w (copyStorageContent w sourceURL destinationURL fuel)
          destinationURL subPath (urlPath sourceURL) objects [] s with ⟨evs1, r1⟩
      simp only [hl] at h
      cases r1 with
      | error e => simp at h
      | ok s1 =>
        obtain ⟨h1, -⟩ : _ :: evs1 = evs ∧ s1 = s' := by simpa using h
        rw [← h1]
        have hperm := copyLoop_perm w (copyStorageContent w sourceURL destinationURL fuel)
          (fun rp st evs2 s2 hh => ih rp st evs2 s2 hh) destinationURL subPath
          (urlPath sourceURL) objects [] s evs1 s1 hl
        simp only [handledObjs, listedContents]
        exact hperm.trans List.perm_append_comm

/-- C2: no folder object is ever passed to the copy handler (every handled
event carries a content object, in any run), and in a successful walk the
objects passed to the handler are, with multiplicity, exactly the content
objects returned by the List calls of the walk: each is handled exactly
once. -/
theorem c2_handler_invariant {σ : Type} (w : Walker σ) (sourceURL destinationURL : Str)
    (fuel : Nat) (subPath : Str) (s : σ) :
    (∀ o u b, Event.handled o u b
        ∈ (copyStorageContent w sourceURL destinationURL fuel subPath s).1 →
      o.isContent = true ∧ o.isFolder = false) ∧
    (∀ evs s', copyStorageContent w sourceURL destinationURL fuel subPath s = (evs, .ok s') →
      (handledObjs evs).Perm (listedContents evs)) := by
  constructor
  · intro o u b hmem
    have hg := copyStorageContent_events w sourceURL destinationURL fuel subPath s
      (Event.handled o u b) hmem
    obtain ⟨hc, -⟩ := hg
    refine ⟨hc, ?_⟩
    unfold Object.isContent at hc
    simpa using hc
  · intro evs s' h
    exact copyStorageContent_perm w sourceURL destinationURL fuel subPath s evs s' h

/-- A source with a nested folder for the C2 witness: the root holds a
content object and a sub folder holding another content object. -/
def c2List : Str → Except Str (List Object) := fun u =>
  if u = str "mem:///src" then
    .ok [⟨str "mem:///src", true⟩, ⟨str "mem:///src/a.txt", false⟩, ⟨str "mem:///src/sub", true⟩]
  else if u = str "mem:///src/sub" then
    .ok [⟨str "mem:///src/sub", true⟩, ⟨str "mem:///src/sub/b.txt", false⟩]
  else .error (str "no such path")

/-- Download for the C2 witness. -/
def c2Download : Object → Except Str Bytes := fun o =>
  if o.url = str "mem:///src/a.txt" then .ok [1]
  else if o.url = str "mem:///src/sub/b.txt" then .ok [2]
  else .error (str "no such object")

/-- C2 witness: on a concrete two-level tree both conjuncts are applied;
the handled objects are a permutation of the listed content objects. -/
theorem c2_handler_invariant_witness :
    ((⟨str "mem:///src/a.txt", false⟩ : Object).isContent = true ∧
      (⟨str "mem:///src/a.txt", false⟩ : Object).isFolder = false) ∧
    (handledObjs
        (copyStorageContent (copyWalker c2List c2Download none) (str "mem:///src")
          (str "mem:///dst") 2 [] []).1).Perm
      (listedContents
        (copyStorageContent (copyWalker c2List c2Download none) (str "mem:///src")
          (str "mem:///dst") 2 [] []).1) := by
  constructor
  · exact (c2_handler_invariant (copyWalker c2List c2Download none) (str "mem:///src")
      (str "mem:///dst") 2 [] []).1 _ (str "mem:///dst/a.txt") [1] (by decide)
  · exact (c2_handler_invariant (copyWalker c2List c2Download none) (str "mem:///src")
      (str "mem:///dst") 2 [] []).2
      (copyStorageContent (copyWalker c2List c2Download none) (str "mem:///src")
        (str "mem:///dst") 2 [] []).1
      [(str "mem:///dst/a.txt", [1]), (str "mem:///dst/sub/b.txt", [2])] (by decide)

/-- C8: with a ModificationHandler supplied and the default copy handler,
every content object's handled bytes are the handler's output on the full
downloaded source bytes, and the default handler uploads exactly those
bytes at the destination URL it was given. -/
theorem c8_modification (list : Str → Except Str (List Object))
    (download : Object → Except Str Bytes) (mh : Bytes → Except Str Bytes)
    (sourceURL destinationURL : Str) (fuel : Nat) (subPath : Str) (st : Store) :
    (∀ o u b, Event.handled o u b
        ∈ (copyStorageContent (copyWalker list download (some mh)) sourceURL destinationURL
            fuel subPath st).1 →
      ∃ src, download o = .ok src ∧ mh src = .ok b) ∧
    (∀ o b s u, copySourceToDestination storeUpload o b s u = .ok (s ++ [(u, b)])) := by
  constructor
  · intro o u b hmem
    have hg := copyStorageContent_events (copyWalker list download (some mh))
      sourceURL destinationURL fuel subPath st (Event.handled o u b) hmem
    obtain ⟨-, src, hdl, hmod⟩ := hg
    exact ⟨src, hdl, hmod⟩
  · intro o b s u
    rfl

/-- C8 witness: a concrete run with a modification handler that prepends a
zero byte; the uploaded bytes are the modified bytes. -/
theorem c8_modification_witness :
    (c2Download ⟨str "mem:///src/a.txt", false⟩ = .ok [1] ∧
      (fun b : Bytes => Except.ok (0 :: b) : Bytes → Except Str Bytes) [1] = .ok [0, 1]) ∧
    copySourceToDestination storeUpload (⟨str "mem:///src/a.txt", false⟩ : Object)
      [0, 1] [] (str "mem:///dst/a.txt") = .ok [(str "mem:///dst/a.txt", [0, 1])] := by
  constructor
  · obtain ⟨src, h1, h2⟩ := (c8_modification c2List c2Download
      (fun b => Except.ok (0 :: b)) (str "mem:///src") (str "mem:///dst") 2 [] []).1
      ⟨str "mem:///src/a.txt", false⟩ (str "mem:///dst/a.txt") [0, 1] (by decide)
    have hsrc : src = [1] := by
      have := h1
      rw [show c2Download ⟨str "mem:///src/a.txt", false⟩ = Except.ok [1] from by decide] at this
      injection this with h
      rw [h]
    rw [hsrc] at h1 h2
    exact ⟨h1, h2⟩
  · exact (c8_modification c2List c2Download (fun b => Except.ok (0 :: b))
      (str "mem:///src") (str "mem:///dst") 2 [] []).2
      ⟨str "mem:///src/a.txt", false⟩ [0, 1] [] (str "mem:///dst/a.txt")

/-- A folder tree: leaves are files with contents, inner nodes are named
folders with an ordered list of children. -/
inductive FTree where
  | file (name : Str) (content : Bytes)
  | dir (name : Str) (children : List FTree)

/-- The name of the root node of a tree. -/
def FTree.name : FTree → Str
  | .file n _ => n
  | .dir n _ => n

/-- Whether the root node is a folder. -/
def FTree.isDirB : FTree → Bool
  | .file _ _ => false
  | .dir _ _ => true

/-- A well-formed entry name: non-empty and without path separators. -/
def wfNameB (n : Str) : Bool := !n.isEmpty && !n.contains '/'

/-- No duplicates, by element equality. -/
def nodupB : List Str → Bool
  | [] => true
  | x :: xs => !xs.contains x && nodupB xs

mutual
/-- Well-formedness of a tree: names are well formed and sibling names are
distinct at every level. -/
def FTree.wfB : FTree → Bool
  | .file n _ => wfNameB n
  | .dir n ch => wfNameB n && nodupB (ch.map FTree.name) && forestWfB ch

/-- Well-formedness of every tree of a forest. -/
def forestWfB : List FTree → Bool
  | [] => true
  | t :: ts => t.wfB && forestWfB ts
end

/-- Well-formedness of a forest used as the children of the copy root:
distinct names and well-formed subtrees. -/
def rootWfB (f : List FTree) : Bool := nodupB (f.map FTree.name) && forestWfB f

mutual
/-- Folder depth of a tree (a bound on the recursion depth of the walk). -/
def FTree.depth : FTree → Nat
  | .file _ _ => 0
  | .dir _ ch => forestDepth ch + 1

/-- Folder depth of a forest. -/
def forestDepth : List FTree → Nat
  | [] => 0
  | t :: ts => max t.depth (forestDepth ts)
end

mutual
/-- The content entries of a tree: relative path (from the tree's parent,
so including the tree's own name) and bytes of every file, in depth-first
listing order. -/
def FTree.contentEntries : FTree → List (Str × Bytes)
  | .file n c => [(n, c)]
  | .dir n ch => (forestContentEntries ch).map (fun e => (n ++ '/' :: e.1, e.2))

/-- The content entries of a forest. -/
def forestContentEntries : List FTree → List (Str × Bytes)
  | [] => []
  | t :: ts => t.contentEntries ++ forestContentEntries ts
end

/-- Segment-wise lookup worker: acc holds the reversed characters of the
current segment; at a slash the segment so far is resolved to a folder and
the search descends into its children. -/
def findNodeGo (f : List FTree) (acc : Str) : Str → Option FTree
  | [] => f.find? (fun t => t.name == acc.reverse)
  | c :: rest =>
    if c = '/' then
      match f.find? (fun t => t.name == acc.reverse) with
      | some (.dir _ ch) => findNodeGo ch [] rest
      | _ => none
    else findNodeGo f (c :: acc) rest

/-- Look a relative path (slash-separated, no leading slash) up in a
forest. -/
def findNode (f : List FTree) (rp : Str) : Option FTree := findNodeGo f [] rp

/-- Modelled from the spec: List of the in-memory source Service holding
the forest f below mem:///src.  Listing a folder returns the folder object
itself followed by its immediate children; listing a file returns the file
object alone; a missing path is an error. -/
def srcList (f : List FTree) : Str → Except Str (List Object) := fun u =>
  if u = str "mem:///src" then
    .ok (⟨str "mem:///src", true⟩ :: f.map (fun t => ⟨str "mem:///src/" ++ t.name, t.isDirB⟩))
  else if (str "mem:///src/").isPrefixOf u then
    match findNode f (u.drop (str "mem:///src/").length) with
    | some (.dir _ ch) => .ok (⟨u, true⟩ :: ch.map (fun t => ⟨u ++ '/' :: t.name, t.isDirB⟩))
    | some (.file _ _) => .ok [⟨u, false⟩]
    | none => .error (str "no such path")
  else .error (str "no such path")

/-- Modelled from the spec: Download of the in-memory source Service
resolves a content object's URL to its bytes. -/
def srcDownload (f : List FTree) : Object → Except Str Bytes := fun o =>
  if (str "mem:///src/").isPrefixOf o.url then
    match findNode f (o.url.drop (str "mem:///src/").length) with
    | some (.file _ c) => .ok c
    | _ => .error (str "no such object")
  else .error (str "no such object")

example : (findNode [.dir (str "sub") [.file (str "b.txt") [9]]] (str "sub/b.txt")).map FTree.name
    = some (str "b.txt") := by decide
example : srcList [.dir (str "sub") [.file (str "b.txt") [9]]] (str "mem:///src/sub")
    = .ok [⟨str "mem:///src/sub", true⟩, ⟨str "mem:///src/sub/b.txt", false⟩] := by decide
example : srcDownload [.dir (str "sub") [.file (str "b.txt") [9]]]
    ⟨str "mem:///src/sub/b.txt", false⟩ = .ok [9] := by decide

/-- A good relative-path key: non-empty, no leading slash, no trailing
slash. -/
def goodKey (rp : Str) : Prop := rp ≠ [] ∧ rp.head? ≠ some '/' ∧ rp.getLast? ≠ some '/'

lemma getLast?_append_ne {a b : Str} (h : b ≠ []) : (a ++ b).getLast? = b.getLast? := by
  rw [List.getLast?_append]
  rcases hb : b.getLast? with _ | x
  · exact absurd (List.getLast?_eq_none_iff.1 hb) h
  · rfl

lemma getLast?_cons_ne {c : Char} {l : Str} (h : l ≠ []) : (c :: l).getLast? = l.getLast? := by
  rw [← List.singleton_append, getLast?_append_ne h]

lemma head?_append_ne {a b : Str} (h : a ≠ []) : (a ++ b).head? = a.head? := by
  rw [List.head?_append]
  rcases ha : a.head? with _ | x
  · cases a with
    | nil => exact absurd rfl h
    | cons c t => simp at ha
  · rfl

lemma getLast?_mem {l : Str} {x : Char} (h : l.getLast? = some x) : x ∈ l := by
  induction l with
  | nil => simp at h
  | cons c t ih =>
    cases t with
    | nil =>
      simp [List.getLast?] at h
      simp [h]
    | cons d t' =>
      rw [getLast?_cons_ne (by simp)] at h
      exact List.mem_cons_of_mem c (ih h)

lemma urlPathJoin_noSlash {b p : Str} (hb : b.getLast? ≠ some '/') (hp : p.head? ≠ some '/') :
    urlPathJoin b p = b ++ '/' :: p := by
  unfold urlPathJoin
  rw [if_neg hb, if_neg hp]

lemma wfName_parts {m : Str} (h : wfNameB m = true) : m ≠ [] ∧ '/' ∉ m := by
  unfold wfNameB at h
  simp at h
  exact ⟨h.1, h.2⟩

lemma goodKey_name {m : Str} (h : wfNameB m = true) : goodKey m := by
  obtain ⟨h1, h2⟩ := wfName_parts h
  refine ⟨h1, fun hh => ?_, fun hl => ?_⟩
  · cases m with
    | nil => exact h1 rfl
    | cons c t =>
      apply h2
      obtain rfl : c = '/' := by simpa using hh
      simp
  · exact h2 (getLast?_mem hl)

lemma goodKey_child {rp m : Str} (h : goodKey rp) (hm : wfNameB m = true) :
    goodKey (rp ++ '/' :: m) := by
  obtain ⟨hm1, hm2⟩ := wfName_parts hm
  refine ⟨by simp, ?_, ?_⟩
  · rw [head?_append_ne h.1]
    exact h.2.1
  · rw [getLast?_append_ne (by simp), getLast?_cons_ne hm1]
    intro hl
    exact hm2 (getLast?_mem hl)

lemma memSrc_split : str "mem:///src" = str "mem://" ++ str "/src" := by decide

lemma urlPath_src_key {rp : Str} (h1 : rp ≠ []) (h2 : rp.getLast? ≠ some '/') :
    urlPath (str "mem:///src" ++ '/' :: rp) = str "/src" ++ '/' :: rp := by
  have he : str "mem:///src" ++ '/' :: rp = str "mem://" ++ (str "/src" ++ '/' :: rp) := by
    rw [memSrc_split, List.append_assoc]
  rw [he, urlPath_memPrefix _ (by rw [head?_append_ne (by decide)]; decide)]
  unfold dropTrailingSlash
  rw [getLast?_append_ne (by simp), getLast?_cons_ne h1, if_neg h2]

lemma nextRel_src (X prev : Str) :
    nextRelativePath (str "/src") (str "/src" ++ '/' :: X) prev = X := by
  unfold nextRelativePath
  rw [if_pos]
  · rw [List.drop_left]
    rfl
  · rw [List.length_append, List.length_cons]
    omega

lemma takeWhile_append_stop {p : Char → Bool} {x y : List Char} {c : Char}
    (hx : ∀ a ∈ x, p a = true) (hc : p c = false) :
    (x ++ c :: y).takeWhile p = x := by
  induction x with
  | nil => simp [List.takeWhile_cons, hc]
  | cons a x' ih =>
    rw [List.cons_append, List.takeWhile_cons, hx a (by simp)]
    rw [ih (fun b hb => hx b (by simp [hb]))]
    simp

lemma baseName_append {a m : Str} (hm : '/' ∉ m) : baseName (a ++ '/' :: m) = m := by
  unfold baseName
  rw [List.reverse_append, List.reverse_cons, List.append_assoc, List.singleton_append]
  rw [takeWhile_append_stop (fun b hb => by
      simp only [bne_iff_ne, ne_eq]
      intro hbe
      exact hm (by simpa [hbe] using List.mem_reverse.1 hb)) (by simp)]
  exact List.reverse_reverse m

lemma findNodeGo_noSlash {m : Str} (hm : '/' ∉ m) :
    ∀ (f : List FTree) (acc : Str),
      findNodeGo f acc m = f.find? (fun t => t.name == acc.reverse ++ m) := by
  induction m with
  | nil =>
    intro f acc
    simp [findNodeGo]
  | cons c rest ih =>
    intro f acc
    have hc : c ≠ '/' := fun h => hm (by simp [h])
    rw [findNodeGo, if_neg hc, ih (fun h => hm (by simp [h]))]
    simp

lemma find?_name_self {cs : List FTree} {c : FTree}
    (hnd : nodupB (cs.map FTree.name) = true) (hc : c ∈ cs) :
    cs.find? (fun t => t.name == c.name) = some c := by
  induction cs with
  | nil => cases hc
  | cons t rest ih =>
    rw [List.map_cons] at hnd
    unfold nodupB at hnd
    rw [Bool.and_eq_true] at hnd
    obtain ⟨hnd1, hnd2⟩ := hnd
    have hmem : t.name ∉ rest.map FTree.name := by simpa using hnd1
    rcases List.mem_cons.1 hc with rfl | hc'
    · rw [List.find?_cons]
      simp
    · rw [List.find?_cons]
      have hne : (t.name == c.name) = false := by
        rw [beq_eq_false_iff_ne]
        intro he
        exact hmem (by rw [he]; exact List.mem_map_of_mem FTree.name hc')
      rw [hne]
      exact ih hnd2 hc'

lemma findNode_single {cs : List FTree} {c : FTree}
    (hnd : nodupB (cs.map FTree.name) = true) (hc : c ∈ cs)
    (hm : wfNameB c.name = true) : findNode cs c.name = some c := by
  unfold findNode
  rw [findNodeGo_noSlash (wfName_parts hm).2]
  simpa using find?_name_self hnd hc

lemma findNodeGo_nil (f : List FTree) (acc : Str) :
    findNodeGo f acc [] = f.find? (fun t => t.name == acc.reverse) := rfl

lemma findNodeGo_slash (f : List FTree) (acc q : Str) :
    findNodeGo f acc ('/' :: q)
      = (match f.find? (fun t => t.name == acc.reverse) with
          | some (.dir _ ch) => findNodeGo ch [] q
          | _ => none) := by
  conv_lhs => rw [findNodeGo]
  rw [if_pos rfl]

lemma findNodeGo_cons_ne {c : Char} (hc : c ≠ '/') (f : List FTree) (acc r : Str) :
    findNodeGo f acc (c :: r) = findNodeGo f (c :: acc) r := by
  conv_lhs => rw [findNodeGo]
  rw [if_neg hc]

lemma findNodeGo_extend : ∀ (rp : Str) (f : List FTree) (acc q : Str),
    findNodeGo f acc (rp ++ '/' :: q)
      = (match findNodeGo f acc rp with
          | some (.dir _ ch) => findNodeGo ch [] q
          | _ => none) := by
  intro rp
  induction rp with
  | nil =>
    intro f acc q
    rw [List.nil_append, findNodeGo_slash, findNodeGo_nil]
  | cons c rest ih =>
    intro f acc q
    by_cases hc : c = '/'
    · subst hc
      rw [List.cons_append, findNodeGo_slash, findNodeGo_slash]
      rcases hf : f.find? (fun t => t.name == acc.reverse) with _ | t
      · rw [hf]
      · rw [hf]
        cases t with
        | file n co => rfl
        | dir n ch => exact ih ch [] q
    · rw [List.cons_append, findNodeGo_cons_ne hc, findNodeGo_cons_ne hc]
      exact ih f (c :: acc) q

lemma findNode_extend_dir {f : List FTree} {rp q : Str} {n : Str} {ch : List FTree} {t : FTree}
    (h1 : findNode f rp = some (.dir n ch)) (h2 : findNode ch q = some t) :
    findNode f (rp ++ '/' :: q) = some t := by
  unfold findNode at h1 h2 ⊢
  rw [findNodeGo_extend, h1]
  exact h2

lemma forestWfB_mem {cs : List FTree} {c : FTree}
    (h : forestWfB cs = true) (hc : c ∈ cs) : c.wfB = true := by
  induction cs with
  | nil => cases hc
  | cons t rest ih =>
    unfold forestWfB at h
    obtain ⟨h1, h2⟩ := by simpa using h
    rcases List.mem_cons.1 hc with rfl | hc'
    · exact h1
    · exact ih h2 hc'

lemma wfB_name {c : FTree} (h : c.wfB = true) : wfNameB c.name = true := by
  cases c with
  | file n co => exact h
  | dir n ch =>
    unfold FTree.wfB at h
    obtain ⟨h1, -⟩ := by simpa using h
    exact h1.1

lemma wfB_dir_parts {n : Str} {ch : List FTree} (h : (FTree.dir n ch).wfB = true) :
    wfNameB n = true ∧ nodupB (ch.map FTree.name) = true ∧ forestWfB ch = true := by
  unfold FTree.wfB at h
  obtain ⟨h1, h2⟩ := by simpa using h
  exact ⟨h1.1, h1.2, h2⟩

lemma forestDepth_cons (c : FTree) (rest : List FTree) :
    forestDepth (c :: rest) = max c.depth (forestDepth rest) := rfl

lemma foldl_append_singleton {α β : Type} (g : α → β) (s : List β) (l : List α) :
    List.foldl (fun st e => st ++ [g e]) s l = s ++ l.map g := by
  induction l generalizing s with
  | nil => simp
  | cons e rest ih => simp [List.foldl_cons, ih]

lemma foldl_filter_singleton {α β : Type} (p : α → Bool) (g : α → β) (s : List β) (l : List α) :
    List.foldl (fun st e => if p e then st ++ [g e] else st) s l
      = s ++ l.filterMap (fun e => if p e then some (g e) else none) := by
  induction l generalizing s with
  | nil => simp
  | cons e rest ih =>
    rw [List.foldl_cons, List.filterMap_cons, ih]
    by_cases hp : p e = true
    · simp [hp]
    · rw [if_neg hp, if_neg hp]

lemma srcSlash_split : str "mem:///src/" = str "mem:///src" ++ ['/'] := by decide

lemma src_key_form (rp : Str) :
    str "mem:///src" ++ '/' :: rp = str "mem:///src/" ++ rp := by
  rw [srcSlash_split, List.append_assoc, List.singleton_append]

lemma src_key_ne_root (rp : Str) : str "mem:///src" ++ '/' :: rp ≠ str "mem:///src" := by
  intro h
  have hl := congrArg List.length h
  rw [List.length_append, List.length_cons] at hl
  omega

lemma src_key_drop (rp : Str) :
    (str "mem:///src" ++ '/' :: rp).drop (str "mem:///src/").length = rp := by
  rw [src_key_form, List.drop_left]

lemma src_key_isPrefix (rp : Str) :
    (str "mem:///src/").isPrefixOf (str "mem:///src" ++ '/' :: rp) = true := by
  rw [src_key_form]
  exact List.isPrefixOf_iff_prefix.2 (List.prefix_append _ _)

lemma srcList_key (f : List FTree) (rp : Str) :
    srcList f (str "mem:///src" ++ '/' :: rp)
      = (match findNode f rp with
          | some (.dir _ ch) =>
            .ok (⟨str "mem:///src" ++ '/' :: rp, true⟩
              :: ch.map (fun t => ⟨(str "mem:///src" ++ '/' :: rp) ++ '/' :: t.name, t.isDirB⟩))
          | some (.file _ _) => .ok [⟨str "mem:///src" ++ '/' :: rp, false⟩]
          | none => .error (str "no such path")) := by
  unfold srcList
  rw [if_neg (src_key_ne_root rp), if_pos (src_key_isPrefix rp), src_key_drop]

lemma srcDownload_key (f : List FTree) (rp : Str) (b : Bool) :
    srcDownload f ⟨str "mem:///src" ++ '/' :: rp, b⟩
      = (match findNode f rp with
          | some (.file _ c) => .ok c
          | _ => .error (str "no such object")) := by
  unfold srcDownload
  rw [if_pos (src_key_isPrefix rp)]
  rw [show (⟨str "mem:///src" ++ '/' :: rp, b⟩ : Object).url = str "mem:///src" ++ '/' :: rp from rfl]
  rw [src_key_drop]

/-- The state transformation one content entry applies during the walk of
the tree source: the pure copy handler on the entry's object, bytes and
joined destination URL. -/
def entryStepG {σ : Type} (hp : Object → Bytes → σ → Str → σ) (dstURL : Str)
    (st : σ) (e : Str × Bytes) : σ :=
  hp ⟨str "mem:///src" ++ '/' :: e.1, false⟩ e.2 st (urlPathJoin dstURL e.1)

lemma child_url_form (a rp m : Str) (c : Char) :
    (a ++ c :: rp) ++ c :: m = a ++ c :: (rp ++ c :: m) := by
  rw [List.append_assoc, List.cons_append]

lemma ne_of_length_lt {x y : Str} (h : x.length < y.length) : y ≠ x := by
  intro he
  rw [he] at h
  omega

lemma copyContentStep_total {σ : Type} (w : Walker σ) (hp : Object → Bytes → σ → Str → σ)
    (dURL subPath : Str) (o : Object) (rel0 dO0 : Str) (s : σ) (content : Bytes)
    (hdlo : w.download o = .ok content) (hmodo : w.modify = none)
    (hhan : w.handler = fun o b st u => .ok (hp o b st u))
    (hsub : subPath ≠ []) :
    copyContentStep w dURL subPath o rel0 dO0 s
      = ([.handled o dO0 content], rel0, .ok (hp o content s dO0)) := by
  unfold copyContentStep
  rw [hdlo, hmodo]
  simp only [applyModify, hhan, if_neg hsub]

lemma walk_tree_loop {σ : Type} (w : Walker σ) (hp : Object → Bytes → σ → Str → σ)
    (f : List FTree) (dstURL : Str)
    (hlist : w.list = srcList f) (hdl : w.download = srcDownload f)
    (hmod : w.modify = none)
    (hhan : w.handler = fun o b st u => .ok (hp o b st u))
    (fuel : Nat)
    (hdir : ∀ rp n ch s, findNode f rp = some (.dir n ch) → goodKey rp →
      (FTree.dir n ch).wfB = true → forestDepth ch + 1 ≤ fuel →
      (copyStorageContent w (str "mem:///src") dstURL fuel rp s).2
        = .ok (List.foldl (entryStepG hp dstURL) s
            ((forestContentEntries ch).map (fun e => (rp ++ '/' :: e.1, e.2)))))
    (rp : Str) (hrp : goodKey rp) :
    ∀ (cs : List FTree) (rel : Str) (s : σ),
      (∀ c ∈ cs, findNode f (rp ++ '/' :: c.name) = some c ∧ c.wfB = true) →
      forestDepth cs ≤ fuel →
      (copyLoop w (copyStorageContent w (str "mem:///src") dstURL fuel) dstURL rp (str "/src")
          (cs.map (fun t => ⟨(str "mem:///src" ++ '/' :: rp) ++ '/' :: t.name, t.isDirB⟩)) rel s).2
        = .ok (List.foldl (entryStepG hp dstURL) s
            ((forestContentEntries cs).map (fun e => (rp ++ '/' :: e.1, e.2)))) := by
  intro cs
  induction cs with
  | nil =>
    intro rel s hcs hdep
    rw [List.map_nil, copyLoop]
    rfl
  | cons c rest ih =>
    intro rel s hcs hdep
    obtain ⟨hfind, hwfc⟩ := hcs c (by simp)
    have hwfn : wfNameB c.name = true := wfB_name hwfc
    have hkey : goodKey (rp ++ '/' :: c.name) := goodKey_child hrp hwfn
    have hdep1 : c.depth ≤ fuel := by
      rw [forestDepth_cons] at hdep
      omega
    have hdep2 : forestDepth rest ≤ fuel := by
      rw [forestDepth_cons] at hdep
      omega
    rw [List.map_cons, copyLoop]
    cases c with
    | file m bytes =>
      simp only [show (FTree.file m bytes).name = m from rfl,
        show (FTree.file m bytes).isDirB = false from rfl] at hfind hkey ⊢
      rw [child_url_form]
      have hdlo : w.download ⟨str "mem:///src" ++ '/' :: (rp ++ '/' :: m), false⟩ = .ok bytes := by
        rw [hdl, srcDownload_key, hfind]
      have hko : (rp ++ '/' :: m) ≠ [] := by simp
      have hnsg : ¬ skipGuard rp (str "/src")
          ⟨str "mem:///src" ++ '/' :: (rp ++ '/' :: m), false⟩ := by
        intro h
        exact absurd h.1 (by simp)
      have hup : urlPath (str "mem:///src" ++ '/' :: (rp ++ '/' :: m))
          = str "/src" ++ '/' :: (rp ++ '/' :: m) := urlPath_src_key hko hkey.2.2
      have hstep : copyStep w (copyStorageContent w (str "mem:///src") dstURL fuel) dstURL rp
          (str "/src") ⟨str "mem:///src" ++ '/' :: (rp ++ '/' :: m), false⟩ rel s
          = ([.handled ⟨str "mem:///src" ++ '/' :: (rp ++ '/' :: m), false⟩
                (urlPathJoin dstURL (rp ++ '/' :: m)) bytes],
              rp ++ '/' :: m,
              .ok (hp ⟨str "mem:///src" ++ '/' :: (rp ++ '/' :: m), false⟩ bytes s
                (urlPathJoin dstURL (rp ++ '/' :: m)))) := by
        rw [copyStep, if_neg hnsg]
        simp only [hup, nextRel_src, if_pos hko]
        have hcont : (⟨str "mem:///src" ++ '/' :: (rp ++ '/' :: m), false⟩ : Object).isContent
            = true := rfl
        rw [if_pos hcont]
        exact copyContentStep_total w hp dstURL rp _ _ _ s bytes hdlo hmod hhan hrp.1
      simp only [hstep]
      have hrest := ih (rp ++ '/' :: m)
        (hp ⟨str "mem:///src" ++ '/' :: (rp ++ '/' :: m), false⟩ bytes s
          (urlPathJoin dstURL (rp ++ '/' :: m)))
        (fun c' hc' => hcs c' (by simp [hc'])) hdep2
      rw [hrest]
      rw [show forestContentEntries (FTree.file m bytes :: rest)
          = (m, bytes) :: forestContentEntries rest from rfl]
      rw [List.map_cons, List.foldl_cons]
      rfl
    | dir n' ch' =>
      simp only [show (FTree.dir n' ch').name = n' from rfl,
        show (FTree.dir n' ch').isDirB = true from rfl] at hfind hkey ⊢
      rw [child_url_form]
      have hup : urlPath (str "mem:///src" ++ '/' :: (rp ++ '/' :: n'))
          = str "/src" ++ '/' :: (rp ++ '/' :: n') := urlPath_src_key (by simp) hkey.2.2
      have hnsg : ¬ skipGuard rp (str "/src")
          ⟨str "mem:///src" ++ '/' :: (rp ++ '/' :: n'), true⟩ := by
        intro h
        rcases h.2 with h2 | h2
        · rw [hup] at h2
          have := congrArg List.length h2
          simp at this
        · rw [hup, urlPathJoin_noSlash (by decide) hrp.2.1] at h2
          have := congrArg List.length h2.2
          simp at this
      have hrec : (copyStorageContent w (str "mem:///src") dstURL fuel (rp ++ '/' :: n') s).2
          = .ok (List.foldl (entryStepG hp dstURL) s
              ((forestContentEntries ch').map (fun e => ((rp ++ '/' :: n') ++ '/' :: e.1, e.2)))) := by
        refine hdir (rp ++ '/' :: n') n' ch' s hfind hkey hwfc ?_
        rw [show (FTree.dir n' ch').depth = forestDepth ch' + 1 from rfl] at hdep1
        omega
      rcases hpair : copyStorageContent w (str "mem:///src") dstURL fuel (rp ++ '/' :: n') s
          with ⟨evs2, r2⟩
      rw [hpair] at hrec
      simp only at hrec
      have hstep : copyStep w (copyStorageContent w (str "mem:///src") dstURL fuel) dstURL rp
          (str "/src") ⟨str "mem:///src" ++ '/' :: (rp ++ '/' :: n'), true⟩ rel s
          = (evs2, rp ++ '/' :: n', r2) := by
        rw [copyStep, if_neg hnsg]
        simp only [hup, nextRel_src]
        rw [if_neg (by simp [Object.isContent])]
        rw [hpair, hrec]
      simp only [hstep, hrec]
      have hrest := ih (rp ++ '/' :: n')
        (List.foldl (entryStepG hp dstURL) s
          ((forestContentEntries ch').map (fun e => ((rp ++ '/' :: n') ++ '/' :: e.1, e.2))))
        (fun c' hc' => hcs c' (by simp [hc'])) hdep2
      have hmaps : (forestContentEntries ch').map (fun e => ((rp ++ '/' :: n') ++ '/' :: e.1, e.2))
          = ((forestContentEntries ch').map (fun e => (n' ++ '/' :: e.1, e.2))).map
              (fun e => (rp ++ '/' :: e.1, e.2)) := by
        rw [List.map_map]
        apply List.map_congr_left
        intro e he
        simp [List.append_assoc]
      rw [hrest]
      rw [show forestContentEntries (FTree.dir n' ch' :: rest)
          = (FTree.dir n' ch').contentEntries ++ forestContentEntries rest from rfl]
      rw [show (FTree.dir n' ch').contentEntries
          = (forestContentEntries ch').map (fun e => (n' ++ '/' :: e.1, e.2)) from rfl]
      rw [List.map_append, List.foldl_append, hmaps]

lemma copyLoop_skip {σ : Type} (w : Walker σ)
    (recurse : Str → σ → List Event × Except Str σ)
    (dURL subPath srcPath rel : Str) (o : Object) (rest : List Object) (s : σ)
    (hf : o.isFolder = true)
    (hskip : urlPath o.url = srcPath ∨ (subPath ≠ [] ∧ urlPath o.url = urlPathJoin srcPath subPath)) :
    copyLoop w recurse dURL subPath srcPath (o :: rest) rel s
      = copyLoop w recurse dURL subPath srcPath rest rel s := by
  have hstep : copyStep w recurse dURL subPath srcPath o rel s = ([], rel, .ok s) := by
    unfold copyStep
    rw [if_pos ⟨hf, hskip⟩]
  conv_lhs => rw [copyLoop]
  simp only [hstep, List.nil_append]

lemma urlPath_src_root : urlPath (str "mem:///src") = str "/src" := by decide

lemma walk_tree_dir {σ : Type} (w : Walker σ) (hp : Object → Bytes → σ → Str → σ)
    (f : List FTree) (dstURL : Str)
    (hlist : w.list = srcList f) (hdl : w.download = srcDownload f)
    (hmod : w.modify = none)
    (hhan : w.handler = fun o b st u => .ok (hp o b st u)) :
    ∀ (fuel : Nat) (rp n : Str) (ch : List FTree) (s : σ),
      findNode f rp = some (.dir n ch) → goodKey rp →
      (FTree.dir n ch).wfB = true → forestDepth ch + 1 ≤ fuel →
      (copyStorageContent w (str "mem:///src") dstURL fuel rp s).2
        = .ok (List.foldl (entryStepG hp dstURL) s
            ((forestContentEntries ch).map (fun e => (rp ++ '/' :: e.1, e.2)))) := by
  intro fuel
  induction fuel with
  | zero =>
    intro rp n ch s hf hg hw hd
    omega
  | succ fuel ih =>
    intro rp n ch s hf hg hw hd
    rw [copyStorageContent]
    have hjoin : urlPathJoin (str "mem:///src") rp = str "mem:///src" ++ '/' :: rp :=
      urlPathJoin_noSlash (by decide) hg.2.1
    have hlv : w.list (if rp ≠ [] then urlPathJoin (str "mem:///src") rp else str "mem:///src")
        = .ok (⟨str "mem:///src" ++ '/' :: rp, true⟩
            :: ch.map (fun t => ⟨(str "mem:///src" ++ '/' :: rp) ++ '/' :: t.name, t.isDirB⟩)) := by
      rw [if_pos hg.1, hjoin, hlist, srcList_key, hf]
    simp only [hlv, urlPath_src_root]
    have hself : skipGuard rp (str "/src") ⟨str "mem:///src" ++ '/' :: rp, true⟩ := by
      refine ⟨rfl, Or.inr ⟨hg.1, ?_⟩⟩
      rw [urlPath_src_key hg.1 hg.2.2, urlPathJoin_noSlash (by decide) hg.2.1]
    rw [copyLoop_skip w _ dstURL rp (str "/src") [] _ _ s rfl hself.2]
    obtain ⟨hwn, hnd, hfw⟩ := wfB_dir_parts hw
    have hcs : ∀ c ∈ ch, findNode f (rp ++ '/' :: c.name) = some c ∧ c.wfB = true := by
      intro c hc
      have hcw := forestWfB_mem hfw hc
      exact ⟨findNode_extend_dir hf (findNode_single hnd hc (wfB_name hcw)), hcw⟩
    exact walk_tree_loop w hp f dstURL hlist hdl hmod hhan fuel ih rp hg ch [] s hcs (by omega)

lemma topLevelDestination_probe_none (probe : Str → Option Object) (dstURL dO objURL : Str)
    (hlast : dO.getLast? ≠ some '/') (hpr : probe dO = none)
    (hO : urlPathJoin dstURL (baseName objURL) = dO) :
    topLevelDestination probe dstURL dO objURL = dO := by
  unfold topLevelDestination
  rw [if_neg hlast]
  simp only [hpr, Option.map_none', Option.getD_none, Bool.false_eq_true, if_false]
  by_cases h : baseName dstURL ≠ baseName objURL ∧ ¬ (baseName dstURL).contains '.' = true
  · rw [if_pos h, hO]
  · rw [if_neg h]

lemma copyContentStep_total_top {σ : Type} (w : Walker σ) (hp : Object → Bytes → σ → Str → σ)
    (dURL : Str) (o : Object) (rel0 dO0 : Str) (s : σ) (content : Bytes)
    (hdlo : w.download o = .ok content) (hmodo : w.modify = none)
    (hhan : w.handler = fun o b st u => .ok (hp o b st u))
    (htop : topLevelDestination (w.probe s) dURL dO0 o.url = dO0) :
    copyContentStep w dURL [] o rel0 dO0 s
      = ([.handled o dO0 content], rel0, .ok (hp o content s dO0)) := by
  unfold copyContentStep
  rw [hdlo, hmodo]
  simp only [applyModify, hhan, if_pos rfl, htop]
  simp

lemma contentEntries_shape {c : FTree} {e : Str × Bytes} (he : e ∈ c.contentEntries) :
    e.1 = c.name ∨ ∃ q, e.1 = c.name ++ '/' :: q := by
  cases c with
  | file n co =>
    rw [show (FTree.file n co).contentEntries = [(n, co)] from rfl] at he
    rw [List.mem_singleton] at he
    subst he
    exact Or.inl rfl
  | dir n ch =>
    rw [show (FTree.dir n ch).contentEntries
        = (forestContentEntries ch).map (fun e => (n ++ '/' :: e.1, e.2)) from rfl] at he
    obtain ⟨e', -, he'⟩ := List.mem_map.1 he
    exact Or.inr ⟨e'.1, by rw [← he']; rfl⟩

lemma forestContentEntries_mem {cs : List FTree} {e : Str × Bytes}
    (he : e ∈ forestContentEntries cs) : ∃ c ∈ cs, e ∈ c.contentEntries := by
  induction cs with
  | nil => cases he
  | cons c rest ih =>
    rw [show forestContentEntries (c :: rest) = c.contentEntries ++ forestContentEntries rest
      from rfl] at he
    rcases List.mem_append.1 he with h | h
    · exact ⟨c, by simp, h⟩
    · obtain ⟨c', hc', h'⟩ := ih h
      exact ⟨c', by simp [hc'], h'⟩

lemma forestContentEntries_key {cs : List FTree} (h : forestWfB cs = true) :
    ∀ e ∈ forestContentEntries cs, e.1 ≠ [] ∧ e.1.head? ≠ some '/' := by
  intro e he
  obtain ⟨c, hc, hec⟩ := forestContentEntries_mem he
  have hwf : wfNameB c.name = true := wfB_name (forestWfB_mem h hc)
  obtain ⟨hn1, hn2⟩ := wfName_parts hwf
  rcases contentEntries_shape hec with hs | ⟨q, hs⟩
  · rw [hs]
    refine ⟨hn1, fun hh => hn2 ?_⟩
    cases hcn : c.name with
    | nil => exact absurd hcn hn1
    | cons a t =>
      rw [hcn] at hh
      obtain rfl : a = '/' := by simpa using hh
      simp [hcn]
  · rw [hs]
    refine ⟨by simp, ?_⟩
    rw [head?_append_ne hn1]
    intro hh
    apply hn2
    cases hcn : c.name with
    | nil => exact absurd hcn hn1
    | cons a t =>
      rw [hcn] at hh
      obtain rfl : a = '/' := by simpa using hh
      simp [hcn]

lemma walk_top_loop_none {σ : Type} (w : Walker σ) (hp : Object → Bytes → σ → Str → σ)
    (f : List FTree) (dstURL : Str)
    (hlist : w.list = srcList f) (hdl : w.download = srcDownload f)
    (hmod : w.modify = none)
    (hhan : w.handler = fun o b st u => .ok (hp o b st u))
    (hprobe : w.probe = fun _ _ => none)
    (hdst1 : dstURL.getLast? ≠ some '/')
    (fuel : Nat)
    (hdir : ∀ rp n ch s, findNode f rp = some (.dir n ch) → goodKey rp →
      (FTree.dir n ch).wfB = true → forestDepth ch + 1 ≤ fuel →
      (copyStorageContent w (str "mem:///src") dstURL fuel rp s).2
        = .ok (List.foldl (entryStepG hp dstURL) s
            ((forestContentEntries ch).map (fun e => (rp ++ '/' :: e.1, e.2))))) :
    ∀ (cs : List FTree) (rel : Str) (s : σ),
      (∀ c ∈ cs, findNode f c.name = some c ∧ c.wfB = true) →
      forestDepth cs ≤ fuel →
      (copyLoop w (copyStorageContent w (str "mem:///src") dstURL fuel) dstURL [] (str "/src")
          (cs.map (fun t => ⟨str "mem:///src/" ++ t.name, t.isDirB⟩)) rel s).2
        = .ok (List.foldl (entryStepG hp dstURL) s (forestContentEntries cs)) := by
  intro cs
  induction cs with
  | nil =>
    intro rel s hcs hdep
    rw [List.map_nil, copyLoop]
    rfl
  | cons c rest ih =>
    intro rel s hcs hdep
    obtain ⟨hfind, hwfc⟩ := hcs c (by simp)
    have hwfn : wfNameB c.name = true := wfB_name hwfc
    have hkey : goodKey c.name := goodKey_name hwfn
    have hdep1 : c.depth ≤ fuel := by
      rw [forestDepth_cons] at hdep
      omega
    have hdep2 : forestDepth rest ≤ fuel := by
      rw [forestDepth_cons] at hdep
      omega
    rw [List.map_cons, copyLoop]
    cases c with
    | file m bytes =>
      simp only [show (FTree.file m bytes).name = m from rfl,
        show (FTree.file m bytes).isDirB = false from rfl] at hfind hkey hwfn ⊢
      rw [← src_key_form]
      have hdlo : w.download ⟨str "mem:///src" ++ '/' :: m, false⟩ = .ok bytes := by
        rw [hdl, srcDownload_key, hfind]
      have hnsg : ¬ skipGuard [] (str "/src") ⟨str "mem:///src" ++ '/' :: m, false⟩ := by
        intro h
        exact absurd h.1 (by simp)
      have hup : urlPath (str "mem:///src" ++ '/' :: m) = str "/src" ++ '/' :: m :=
        urlPath_src_key hkey.1 hkey.2.2
      have hjd : urlPathJoin dstURL m = dstURL ++ '/' :: m :=
        urlPathJoin_noSlash hdst1 hkey.2.1
      have htop : topLevelDestination (w.probe s) dstURL (urlPathJoin dstURL m)
          (str "mem:///src" ++ '/' :: m) = urlPathJoin dstURL m :=
        topLevelDestination_probe_none _ _ _ _
          (by rw [hjd, getLast?_append_ne (by simp), getLast?_cons_ne (wfName_parts hwfn).1]
              intro hh
              exact (wfName_parts hwfn).2 (getLast?_mem hh))
          (by rw [hprobe]) (by rw [baseName_append (wfName_parts hwfn).2])
      have hstep : copyStep w (copyStorageContent w (str "mem:///src") dstURL fuel) dstURL []
          (str "/src") ⟨str "mem:///src" ++ '/' :: m, false⟩ rel s
          = ([.handled ⟨str "mem:///src" ++ '/' :: m, false⟩ (urlPathJoin dstURL m) bytes],
              m, .ok (hp ⟨str "mem:///src" ++ '/' :: m, false⟩ bytes s (urlPathJoin dstURL m))) := by
        rw [copyStep, if_neg hnsg]
        simp only [hup, nextRel_src, if_pos (wfName_parts hwfn).1]
        have hcont : (⟨str "mem:///src" ++ '/' :: m, false⟩ : Object).isContent = true := rfl
        rw [if_pos hcont]
        exact copyContentStep_total_top w hp dstURL ⟨str "mem:///src" ++ '/' :: m, false⟩
          m (urlPathJoin dstURL m) s bytes hdlo hmod hhan htop
      simp only [hstep]
      have hrest := ih m (hp ⟨str "mem:///src" ++ '/' :: m, false⟩ bytes s (urlPathJoin dstURL m))
        (fun c' hc' => hcs c' (by simp [hc'])) hdep2
      rw [hrest]
      rw [show forestContentEntries (FTree.file m bytes :: rest)
          = (m, bytes) :: forestContentEntries rest from rfl]
      rw [List.foldl_cons]
      rfl
    | dir n' ch' =>
      simp only [show (FTree.dir n' ch').name = n' from rfl,
        show (FTree.dir n' ch').isDirB = true from rfl] at hfind hkey hwfn ⊢
      rw [← src_key_form]
      have hup : urlPath (str "mem:///src" ++ '/' :: n') = str "/src" ++ '/' :: n' :=
        urlPath_src_key hkey.1 hkey.2.2
      have hnsg : ¬ skipGuard [] (str "/src") ⟨str "mem:///src" ++ '/' :: n', true⟩ := by
        intro h
        rcases h.2 with h2 | h2
        · rw [hup] at h2
          have := congrArg List.length h2
          simp at this
        · exact h2.1 rfl
      have hrec : (copyStorageContent w (str "mem:///src") dstURL fuel n' s).2
          = .ok (List.foldl (entryStepG hp dstURL) s
              ((forestContentEntries ch').map (fun e => (n' ++ '/' :: e.1, e.2)))) := by
        refine hdir n' n' ch' s hfind hkey hwfc ?_
        rw [show (FTree.dir n' ch').depth = forestDepth ch' + 1 from rfl] at hdep1
        omega
      rcases hpair : copyStorageContent w (str "mem:///src") dstURL fuel n' s with ⟨evs2, r2⟩
      rw [hpair] at hrec
      simp only at hrec
      have hstep : copyStep w (copyStorageContent w (str "mem:///src") dstURL fuel) dstURL []
          (str "/src") ⟨str "mem:///src" ++ '/' :: n', true⟩ rel s = (evs2, n', r2) := by
        rw [copyStep, if_neg hnsg]
        simp only [hup, nextRel_src]
        rw [if_neg (by simp [Object.isContent])]
        rw [hpair, hrec]
      simp only [hstep, hrec]
      have hrest := ih n'
        (List.foldl (entryStepG hp dstURL) s
          ((forestContentEntries ch').map (fun e => (n' ++ '/' :: e.1, e.2))))
        (fun c' hc' => hcs c' (by simp [hc'])) hdep2
      rw [hrest]
      rw [show forestContentEntries (FTree.dir n' ch' :: rest)
          = (FTree.dir n' ch').contentEntries ++ forestContentEntries rest from rfl]
      rw [show (FTree.dir n' ch').contentEntries
          = (forestContentEntries ch').map (fun e => (n' ++ '/' :: e.1, e.2)) from rfl]
      rw [List.foldl_append]

end Storage
